import Mathlib

/-!
Verification development for the Voiceflow agent-copilot template/document
compiler (the `addApiTool` operator path in `bin/vf-copilot.js` and the
`addApiToolFromJson` generator path in `src/api-tool-templates.js`).

The JavaScript source scans template strings with the global regular
expression `/\{+([a-zA-Z0-9_]+)\}+/g`.  All of the scanning loops of the
source are embedded below over `List Char`.  Mongo-style random identifiers
(24 lowercase hex characters produced by `generateMongoId`) are embedded as
natural numbers drawn from a counter threaded through each operation, in
the exact order the source calls `generateMongoId`; the claims under study
depend only on identifier structure, never on their textual format.
ISO timestamps (`new Date().toISOString()`) are environment inputs with no
bearing on any claim and are omitted from the records.
-/

namespace VfCopilot

/-- The character class `[a-zA-Z0-9_]` of the source regex (ASCII classes, as in JavaScript). -/
def isNameChar (c : Char) : Bool :=
  c.isAlpha || c.isDigit || c == '_'

/-- One element of a Voiceflow `text` array: a literal string or a
`{ variableID: … }` reference object. -/
inductive Seg where
  | lit (s : String)
  | ref (id : Nat)
deriving DecidableEq, Repr

/-- Attempt of the regex `\{+([a-zA-Z0-9_]+)\}+` anchored at the head of the
character list: a maximal nonempty run of `{`, then a maximal nonempty run
of name characters, then a maximal nonempty run of `}`.  (No backtracking
can ever succeed where these maximal runs fail, so this is exactly the
JavaScript match at this position.)  Returns the captured name and the
characters after the match. -/
def matchVarAt (cs : List Char) : Option (String × List Char) :=
  if (cs.takeWhile (fun c => c == '{')).isEmpty then none else
  if ((cs.dropWhile (fun c => c == '{')).takeWhile isNameChar).isEmpty then none else
  if (((cs.dropWhile (fun c => c == '{')).dropWhile isNameChar).takeWhile
      (fun c => c == '}')).isEmpty then none else
  some (String.mk ((cs.dropWhile (fun c => c == '{')).takeWhile isNameChar),
    ((cs.dropWhile (fun c => c == '{')).dropWhile isNameChar).dropWhile
      (fun c => c == '}'))

theorem matchVarAt_none_of_head (c : Char) (cs : List Char) (h : ¬ c = '{') :
    matchVarAt (c :: cs) = none := by
  have hb : (c == '{') = false := by simp [h]
  simp [matchVarAt, List.takeWhile, hb]

theorem length_dropWhile_le' (p : Char → Bool) (cs : List Char) :
    (cs.dropWhile p).length ≤ cs.length := by
  induction cs with
  | nil => simp [List.dropWhile]
  | cons c t ih =>
    by_cases h : p c
    · simp [List.dropWhile, h]; omega
    · simp [List.dropWhile, h]

theorem matchVarAt_rest_length {cs rest : List Char} {nm : String}
    (h : matchVarAt cs = some (nm, rest)) : rest.length < cs.length := by
  unfold matchVarAt at h
  split_ifs at h with h1 h2 h3
  simp only [Option.some.injEq, Prod.mk.injEq] at h
  obtain ⟨-, hrest⟩ := h
  cases cs with
  | nil => simp [List.takeWhile] at h1
  | cons c t =>
    have hc : (c == '{') = true := by
      by_contra hc
      simp only [Bool.not_eq_true] at hc
      simp [List.takeWhile, hc] at h1
    have hdrop : List.dropWhile (fun c => c == '{') (c :: t) =
        List.dropWhile (fun c => c == '{') t := by
      simp [List.dropWhile, hc]
    have hle : rest.length ≤ (List.dropWhile (fun c => c == '{') t).length := by
      rw [← hrest, ← hdrop]
      calc ((((c :: t).dropWhile (fun c => c == '{')).dropWhile
              isNameChar).dropWhile (fun c => c == '}')).length
          ≤ (((c :: t).dropWhile (fun c => c == '{')).dropWhile
              isNameChar).length := length_dropWhile_le' _ _
        _ ≤ ((c :: t).dropWhile (fun c => c == '{')).length :=
              length_dropWhile_le' _ _
    have := length_dropWhile_le' (fun c => c == '{') t
    simp only [List.length_cons]
    omega

/-- The segmentation loop of the source (`while ((match = varRegex.exec(s)))`
with literal slices pushed between matches):  `acc` is the literal text
accumulated since the last match, flushed (when nonempty) before each
variable reference and at the end of the string.  `look` is the
`variableIDs` name→id map. -/
def tokenizeAux (look : String → Nat) : List Char → List Char → List Seg
  | acc, [] => if acc.isEmpty then [] else [Seg.lit (String.mk acc)]
  | acc, c :: cs =>
    match _h : matchVarAt (c :: cs) with
    | some (nm, rest) =>
      (if acc.isEmpty then [] else [Seg.lit (String.mk acc)]) ++
        Seg.ref (look nm) :: tokenizeAux look [] rest
    | none => tokenizeAux look (acc ++ [c]) cs
termination_by _ cs => cs.length
decreasing_by
  · exact matchVarAt_rest_length _h
  · simp

/-- Tokenize a template string into Voiceflow `text` segments, as the
`urlParts` / `valueParts` / `bodyParts` loops of `addApiTool` do. -/
def tokenize (look : String → Nat) (s : String) : List Seg :=
  tokenizeAux look [] s.data

/-- The variable-name extraction loop (`while ((match = varRegex.exec(s)))
foundVars.add(match[1])`), before deduplication: every captured name in
match order, possibly with repeats. -/
def extractVarsF : Nat → List Char → List String
  | _, [] => []
  | 0, _ :: _ => []
  | f + 1, c :: cs =>
    match matchVarAt (c :: cs) with
    | some (nm, rest) => nm :: extractVarsF f rest
    | none => extractVarsF f cs

/-- The loop itself, run with enough fuel (the fuel-indexed form keeps the
recursion structural so concrete runs compute inside the kernel; fuel
never runs out on `cs.length`, see `extractVarsF_irrel`). -/
def extractVarsAux (cs : List Char) : List String :=
  extractVarsF cs.length cs

theorem extractVarsF_irrel :
    ∀ (f1 : Nat), ∀ (cs : List Char), ∀ (f2 : Nat), cs.length ≤ f1 →
      cs.length ≤ f2 → extractVarsF f1 cs = extractVarsF f2 cs := by
  intro f1
  induction f1 with
  | zero =>
    intro cs f2 h1 _
    have : cs = [] := List.length_eq_zero.mp (Nat.le_zero.mp h1)
    subst this
    cases f2 <;> rfl
  | succ f ih =>
    intro cs f2 h1 h2
    cases cs with
    | nil => cases f2 <;> rfl
    | cons c t =>
      cases f2 with
      | zero => simp at h2
      | succ g =>
        show (match matchVarAt (c :: t) with
          | some (nm, rest) => nm :: extractVarsF f rest
          | none => extractVarsF f t) =
          (match matchVarAt (c :: t) with
          | some (nm, rest) => nm :: extractVarsF g rest
          | none => extractVarsF g t)
        cases hm : matchVarAt (c :: t) with
        | some p =>
          obtain ⟨nm, rest⟩ := p
          have hr := matchVarAt_rest_length hm
          simp only [List.length_cons] at h1 h2 hr
          dsimp only
          rw [ih rest g (by omega) (by omega)]
        | none =>
          simp only [List.length_cons] at h1 h2
          dsimp only
          rw [ih t g (by omega) (by omega)]

def extractVars (s : String) : List String := extractVarsAux s.data

/-- Insertion-ordered deduplication, as a JavaScript `Set` iterated by
`Array.from`: first occurrences survive, in order. -/
def firstDedup : List String → List String
  | [] => []
  | x :: xs => x :: firstDedup (xs.filter (fun y => ¬ y = x))
termination_by l => l.length
decreasing_by
  have := List.length_filter_le (fun y => decide (¬ y = x)) xs
  simp only [List.length_cons]
  omega

/-- Models `url.replace(varRegex, '\x7bvar\x7d')`: every regex match replaced by
the five-character wildcard token. -/
def replaceVarsAux : List Char → List Char
  | [] => []
  | c :: cs =>
    match _h : matchVarAt (c :: cs) with
    | some (_, rest) => '{' :: 'v' :: 'a' :: 'r' :: '}' :: replaceVarsAux rest
    | none => c :: replaceVarsAux cs
termination_by cs => cs.length
decreasing_by
  · exact matchVarAt_rest_length _h
  · simp

def replaceVars (s : String) : String := String.mk (replaceVarsAux s.data)

/-! ### JavaScript string primitives (char-level, kernel-computable) -/

/-- JavaScript `String.prototype.toLowerCase`, restricted to ASCII (the only case the
source exercises). -/
def lowerChar (c : Char) : Char :=
  if 'A' ≤ c ∧ c ≤ 'Z' then Char.ofNat (c.toNat + 32) else c

def jsToLower (s : String) : String := String.mk (s.data.map lowerChar)

/-- JavaScript `String.prototype.trim` (ASCII whitespace). -/
def jsTrimChars (cs : List Char) : List Char :=
  ((cs.dropWhile Char.isWhitespace).reverse.dropWhile Char.isWhitespace).reverse

def jsTrim (s : String) : String := String.mk (jsTrimChars s.data)

/-- JavaScript `String.prototype.split` with a one-character separator
(`''.split(sep)` is `['']`). -/
def jsSplitChar (sep : Char) : List Char → List (List Char)
  | [] => [[]]
  | c :: cs =>
    if c = sep then [] :: jsSplitChar sep cs
    else match jsSplitChar sep cs with
      | [] => [[c]]
      | h :: t => (c :: h) :: t

def jsSplit (sep : Char) (s : String) : List String :=
  (jsSplitChar sep s.data).map String.mk

/-- JavaScript `Array.prototype.join` with a one-character separator. -/
def jsJoinSep (sep : Char) : List String → String
  | [] => ""
  | [x] => x
  | x :: y :: xs => x ++ String.mk [sep] ++ jsJoinSep sep (y :: xs)

/-! ### Step equations for the scanning loops -/

theorem tokenizeAux_nil (look : String → Nat) (acc : List Char) :
    tokenizeAux look acc [] =
      if acc.isEmpty then [] else [Seg.lit (String.mk acc)] := by
  rw [tokenizeAux]

theorem tokenizeAux_match (look : String → Nat) (acc : List Char) (c : Char)
    (cs rest : List Char) (nm : String)
    (h : matchVarAt (c :: cs) = some (nm, rest)) :
    tokenizeAux look acc (c :: cs) =
      (if acc.isEmpty then [] else [Seg.lit (String.mk acc)]) ++
        Seg.ref (look nm) :: tokenizeAux look [] rest := by
  rw [tokenizeAux]
  split
  next nm' rest' heq =>
    rw [h] at heq
    cases heq
    rfl
  next heq => rw [h] at heq; exact Option.noConfusion heq

theorem tokenizeAux_nomatch (look : String → Nat) (acc : List Char) (c : Char)
    (cs : List Char) (h : matchVarAt (c :: cs) = none) :
    tokenizeAux look acc (c :: cs) = tokenizeAux look (acc ++ [c]) cs := by
  rw [tokenizeAux]
  split
  next nm' rest' heq => rw [h] at heq; exact Option.noConfusion heq
  next heq => rfl

theorem extractVarsAux_nil : extractVarsAux [] = [] := rfl

theorem extractVarsAux_match (c : Char) (cs rest : List Char) (nm : String)
    (h : matchVarAt (c :: cs) = some (nm, rest)) :
    extractVarsAux (c :: cs) = nm :: extractVarsAux rest := by
  show extractVarsF (c :: cs).length (c :: cs) = nm :: extractVarsF rest.length rest
  have hr := matchVarAt_rest_length h
  simp only [List.length_cons]
  show (match matchVarAt (c :: cs) with
    | some (nm, rest) => nm :: extractVarsF cs.length rest
    | none => extractVarsF cs.length cs) = nm :: extractVarsF rest.length rest
  rw [h]
  dsimp only
  simp only [List.length_cons] at hr
  rw [extractVarsF_irrel cs.length rest rest.length (by omega) (Nat.le_refl _)]

theorem extractVarsAux_nomatch (c : Char) (cs : List Char)
    (h : matchVarAt (c :: cs) = none) :
    extractVarsAux (c :: cs) = extractVarsAux cs := by
  show extractVarsF (c :: cs).length (c :: cs) = extractVarsF cs.length cs
  simp only [List.length_cons]
  show (match matchVarAt (c :: cs) with
    | some (nm, rest) => nm :: extractVarsF cs.length rest
    | none => extractVarsF cs.length cs) = extractVarsF cs.length cs
  rw [h]

/-! ### Claim C1: round-trip of tokenization

A well-formed template (spec §3/§4.1: literal text interleaved with
placeholders `{name}` / `{{name}}`, names matching `[a-zA-Z0-9_]+`) is
described by a list of pieces; rendering the pieces yields the template
string, `renderSubst` yields the string with each placeholder replaced by
the value of its variable. -/

inductive Piece where
  | lit (s : String)
  | ph (b : Nat) (n : String)
deriving DecidableEq, Repr

/-- Literal pieces are brace-free; a placeholder uses one or two brace
pairs and a nonempty `[a-zA-Z0-9_]+` name. -/
def wfPiece : Piece → Bool
  | .lit s => s.data.all (fun c => !(c == '{') && !(c == '}'))
  | .ph b n => (b == 1 || b == 2) && !n.data.isEmpty && n.data.all isNameChar

def WFTemplate (ps : List Piece) : Prop := ∀ p ∈ ps, wfPiece p = true

instance (ps : List Piece) : Decidable (WFTemplate ps) := by
  unfold WFTemplate; infer_instance

def renderPiece : Piece → List Char
  | .lit s => s.data
  | .ph b n => List.replicate b '{' ++ n.data ++ List.replicate b '}'

def renderChars (ps : List Piece) : List Char := (ps.map renderPiece).flatten

/-- The template string denoted by a piece list. -/
def renderTemplate (ps : List Piece) : String := String.mk (renderChars ps)

def substChars (v : String → List Char) : List Piece → List Char
  | [] => []
  | .lit s :: ps => s.data ++ substChars v ps
  | .ph _ n :: ps => v n ++ substChars v ps

/-- The template with every placeholder replaced by its variable's value. -/
def renderSubst (v : String → String) (ps : List Piece) : String :=
  String.mk (substChars (fun n => (v n).data) ps)

def segChars (vals : Nat → String) : Seg → List Char
  | .lit s => s.data
  | .ref i => (vals i).data

/-- Concatenate a segment sequence, substituting `vals` for the variable
references. -/
def concatSegs (vals : Nat → String) (segs : List Seg) : String :=
  String.mk ((segs.map (segChars vals)).flatten)

/-- Wrapping with `String.mk` turns list append into string append. -/
theorem mk_append (a b : List Char) :
    String.mk a ++ String.mk b = String.mk (a ++ b) := rfl

theorem span_app (p : Char → Bool) (xs rest : List Char)
    (h1 : ∀ c ∈ xs, p c = true)
    (h2 : ∀ d, rest.head? = some d → p d = false) :
    (xs ++ rest).takeWhile p = xs ∧ (xs ++ rest).dropWhile p = rest := by
  induction xs with
  | nil =>
    simp only [List.nil_append]
    cases rest with
    | nil => simp [List.takeWhile, List.dropWhile]
    | cons d t =>
      have := h2 d rfl
      simp [List.takeWhile, List.dropWhile, this]
  | cons x xs ih =>
    have hx : p x = true := h1 x (by simp)
    have := ih (fun c hc => h1 c (by simp [hc]))
    simp [List.takeWhile, List.dropWhile, hx, this.1, this.2]

theorem isNameChar_not_brace {c : Char} (h : isNameChar c = true) :
    ¬ c = '{' ∧ ¬ c = '}' := by
  constructor <;> rintro rfl <;> simp [isNameChar] at h

/-- The regex match at a well-formed placeholder: greedy braces, name and
closing braces, provided the following text does not begin with `}`. -/
theorem matchVarAt_placeholder (b : Nat) (n rest : List Char)
    (hb : 1 ≤ b) (hn : n ≠ []) (hname : ∀ c ∈ n, isNameChar c = true)
    (hrest : ∀ d, rest.head? = some d → ¬ d = '}') :
    matchVarAt (List.replicate b '{' ++ n ++ List.replicate b '}' ++ rest) =
      some (String.mk n, rest) := by
  have span1 := span_app (fun c => c == '{') (List.replicate b '{')
      (n ++ (List.replicate b '}' ++ rest))
      (by intro c hc; simp [List.eq_of_mem_replicate hc])
      (by
        intro d hd
        cases n with
        | nil => exact absurd rfl hn
        | cons a t =>
          simp only [List.cons_append, List.head?_cons, Option.some.injEq] at hd
          subst hd
          have h3 := isNameChar_not_brace (hname a (by simp))
          simp [h3.1])
  have span2 := span_app isNameChar n (List.replicate b '}' ++ rest)
      hname
      (by
        intro d hd
        cases hb' : b with
        | zero => omega
        | succ k =>
          subst hb'
          simp only [List.replicate_succ, List.cons_append, List.head?_cons,
            Option.some.injEq] at hd
          subst hd
          decide)
  have span3 := span_app (fun c => c == '}') (List.replicate b '}') rest
      (by intro c hc; simp [List.eq_of_mem_replicate hc])
      (by
        intro d hd
        have := hrest d hd
        simp [this])
  have hne1 : ¬ (List.replicate b '{').isEmpty = true := by
    cases b with
    | zero => omega
    | succ k => simp [List.replicate_succ]
  have hne2 : ¬ n.isEmpty = true := by
    cases n with
    | nil => exact absurd rfl hn
    | cons a t => simp
  have hne3 : ¬ (List.replicate b '}').isEmpty = true := by
    cases b with
    | zero => omega
    | succ k => simp [List.replicate_succ]
  unfold matchVarAt
  rw [List.append_assoc, List.append_assoc] at *
  rw [span1.1, span1.2]
  rw [← List.append_assoc n] at span2 ⊢
  rw [span2.1, span2.2, span3.1, span3.2]
  simp [hne1, hne2, hne3]

theorem matchVarAt_nil : matchVarAt [] = none := rfl

/-- Lemma `tokenizeAux_match` for an arbitrary (necessarily nonempty) input. -/
theorem tokenizeAux_matchAny (look : String → Nat) (acc : List Char)
    (cs rest : List Char) (nm : String)
    (h : matchVarAt cs = some (nm, rest)) :
    tokenizeAux look acc cs =
      (if acc.isEmpty then [] else [Seg.lit (String.mk acc)]) ++
        Seg.ref (look nm) :: tokenizeAux look [] rest := by
  cases cs with
  | nil => rw [matchVarAt_nil] at h; exact Option.noConfusion h
  | cons c t => exact tokenizeAux_match look acc c t rest nm h

/-- Scanning brace-free text only accumulates literal characters. -/
theorem tokenizeAux_consume_lit (look : String → Nat) (xs : List Char)
    (hx : ∀ c ∈ xs, ¬ c = '{') :
    ∀ acc rest, tokenizeAux look acc (xs ++ rest) =
      tokenizeAux look (acc ++ xs) rest := by
  induction xs with
  | nil => intro acc rest; simp
  | cons x t ih =>
    intro acc rest
    have hx0 : ¬ x = '{' := hx x (by simp)
    rw [List.cons_append,
      tokenizeAux_nomatch look acc x (t ++ rest)
        (matchVarAt_none_of_head x (t ++ rest) hx0),
      ih (fun c hc => hx c (by simp [hc]))]
    simp

/-- A well-formed template's rendering never starts with a close brace. -/
theorem renderChars_head_ne_close (ps : List Piece) (hwf : WFTemplate ps) :
    ∀ d, (renderChars ps).head? = some d → ¬ d = '}' := by
  induction ps with
  | nil => intro d hd; simp [renderChars] at hd
  | cons p t ih =>
    intro d hd
    have hwp := hwf p (by simp)
    have hwt : WFTemplate t := fun q hq => hwf q (by simp [hq])
    cases p with
    | lit s =>
      cases hs : s.data with
      | nil =>
        apply ih hwt d
        have hre : renderChars (Piece.lit s :: t) = renderChars t := by
          simp [renderChars, renderPiece, hs]
        rwa [hre] at hd
      | cons a u =>
        simp only [renderChars, List.map_cons, List.flatten_cons,
          renderPiece, hs, List.cons_append, List.head?_cons,
          Option.some.injEq] at hd
        subst hd
        simp only [wfPiece] at hwp
        have h3 := List.all_eq_true.mp hwp a (by rw [hs]; simp)
        simp only [Bool.and_eq_true, Bool.not_eq_true', beq_eq_false_iff_ne,
          ne_eq] at h3
        exact h3.2
    | ph b n =>
      have hb : (b == 1 || b == 2) = true := by
        simp only [wfPiece, Bool.and_eq_true] at hwp
        exact hwp.1.1
      have hb1 : 1 ≤ b := by
        rcases Bool.or_eq_true_iff.mp hb with h | h <;>
          simp only [beq_iff_eq] at h <;> omega
      cases hbv : b with
      | zero => omega
      | succ k =>
        subst hbv
        simp only [renderChars, List.map_cons, List.flatten_cons, renderPiece,
          List.replicate_succ, List.cons_append, List.head?_cons,
          Option.some.injEq] at hd
        subst hd
        decide

/-- Core round-trip invariant: scanning the rendering of a well-formed
template with pending literal text `acc` yields segments that concatenate
to `acc` followed by the substituted template. -/
theorem tokenizeAux_render (look : String → Nat) (vals : Nat → String)
    (ps : List Piece) (hwf : WFTemplate ps) :
    ∀ acc, ((tokenizeAux look acc (renderChars ps)).map (segChars vals)).flatten =
      acc ++ substChars (fun n => (vals (look n)).data) ps := by
  induction ps with
  | nil =>
    intro acc
    by_cases ha : acc.isEmpty
    · rw [show renderChars [] = [] from rfl, tokenizeAux_nil]
      have ha' : acc = [] := List.isEmpty_iff.mp ha
      subst ha'
      simp [substChars]
    · rw [show renderChars [] = [] from rfl, tokenizeAux_nil]
      simp [ha, segChars, substChars]
  | cons p t ih =>
    have hwp := hwf p (by simp)
    have hwt : WFTemplate t := fun q hq => hwf q (by simp [hq])
    intro acc
    cases p with
    | lit s =>
      have hs : ∀ c ∈ s.data, ¬ c = '{' := by
        intro c hc
        have := hwp
        simp only [wfPiece, List.all_eq_true] at this
        have := this c hc
        simp only [Bool.and_eq_true, Bool.not_eq_true', beq_eq_false_iff_ne,
          ne_eq] at this
        exact this.1
      have hrc : renderChars (Piece.lit s :: t) = s.data ++ renderChars t := by
        simp [renderChars, renderPiece]
      rw [hrc, tokenizeAux_consume_lit look s.data hs acc (renderChars t),
        ih hwt (acc ++ s.data)]
      simp [substChars]
    | ph b n =>
      have hwp' := hwp
      simp only [wfPiece, Bool.and_eq_true] at hwp'
      have hb1 : 1 ≤ b := by
        rcases Bool.or_eq_true_iff.mp hwp'.1.1 with h | h <;>
          simp only [beq_iff_eq] at h <;> omega
      have hn : n.data ≠ [] := by
        intro hcon
        have h2 := hwp'.1.2
        rw [hcon] at h2
        simp at h2
      have hname : ∀ c ∈ n.data, isNameChar c = true := by
        have h2 := hwp'.2
        simpa [List.all_eq_true] using h2
      have hrc : renderChars (Piece.ph b n :: t) =
          List.replicate b '{' ++ (n.data ++ (List.replicate b '}' ++
            renderChars t)) := by
        simp [renderChars, renderPiece]
      have hmatch := matchVarAt_placeholder b n.data (renderChars t) hb1 hn
        hname (renderChars_head_ne_close t hwt)
      have hmk : String.mk n.data = n := rfl
      rw [hrc]
      rw [List.append_assoc, List.append_assoc] at hmatch
      rw [tokenizeAux_matchAny look acc _ _ _ hmatch, hmk]
      by_cases ha : acc.isEmpty
      · have ha' : acc = [] := List.isEmpty_iff.mp ha
        subst ha'
        simp [segChars, substChars, ih hwt []]
      · simp [ha, segChars, substChars, ih hwt []]

/-- C1 (confirmed).  Round-trip of tokenization: for every well-formed
template (placeholders `{name}` or `{{name}}`, names matching
`[a-zA-Z0-9_]+`), tokenizing it into a segment sequence and concatenating
the literal segments with each variable reference replaced by its
variable's test value reproduces the original string with those values
substituted for the placeholders. -/
theorem C1_tokenize_roundtrip (ps : List Piece) (hwf : WFTemplate ps)
    (look : String → Nat) (vals : Nat → String) :
    concatSegs vals (tokenize look (renderTemplate ps)) =
      renderSubst (fun n => vals (look n)) ps := by
  unfold concatSegs tokenize renderTemplate renderSubst
  rw [show (String.mk (renderChars ps)).data = renderChars ps from rfl]
  rw [tokenizeAux_render look vals ps hwf []]
  rfl

/-- Witness for C1 at the concrete template `a{x}-{{y}}`. -/
theorem C1_tokenize_roundtrip_witness :
    WFTemplate [Piece.lit "a", Piece.ph 1 "x", Piece.lit "-", Piece.ph 2 "y"] ∧
    concatSegs (fun i => if i = 5 then "V" else "W")
        (tokenize (fun n => if n = "x" then 5 else 7)
          (renderTemplate
            [Piece.lit "a", Piece.ph 1 "x", Piece.lit "-", Piece.ph 2 "y"])) =
      renderSubst
        (fun n => (fun i => if i = 5 then "V" else "W")
          ((fun n => if n = "x" then 5 else 7) n))
        [Piece.lit "a", Piece.ph 1 "x", Piece.lit "-", Piece.ph 2 "y"] :=
  ⟨by decide,
    C1_tokenize_roundtrip
      [Piece.lit "a", Piece.ph 1 "x", Piece.lit "-", Piece.ph 2 "y"]
      (by decide) (fun n => if n = "x" then 5 else 7)
      (fun i => if i = 5 then "V" else "W")⟩

/-! ### Document data model (the `.vf` collections the two paths touch) -/

/-- A `{ text: [...] }` group of a Voiceflow url / query / header value. -/
structure TextGroup where
  text : List Seg
deriving DecidableEq, Repr

structure QueryParam where
  id : Nat
  key : String
  value : List TextGroup
deriving DecidableEq, Repr

structure Header where
  id : Nat
  key : String
  value : List TextGroup
deriving DecidableEq, Repr

/-- A tool body.  The operator path always builds
`type 'raw-input' / contentType 'json'`; the generator path forwards the
candidate's body verbatim, so every field is optional. -/
structure BodyV where
  btype : Option String
  content : Option (List Seg)
  contentType : Option String
deriving DecidableEq, Repr

structure Variable where
  id : Nat
  name : String
  apiToolID : Nat
  description : String
deriving DecidableEq, Repr

/-- An `apiTools` entry.  `name` is optional because the generator path
never defaults it (a candidate without a name is pushed without one). -/
structure Tool where
  id : Nat
  name : Option String
  description : String
  url : List TextGroup
  httpMethod : String
  queryParameters : List QueryParam
  headers : List Header
  body : Option BodyV
  createdByID : Option Int
deriving DecidableEq, Repr

structure Agent where
  id : Nat
  name : String
deriving DecidableEq, Repr

structure Link where
  id : Nat
  agentID : Nat
  apiToolID : Nat
deriving DecidableEq, Repr

/-- The `.vf` document: the collections the add-tool operations read or
mutate (`creatorID` stands for `data.version.creatorID`). -/
structure VfData where
  agents : List Agent
  apiTools : List Tool
  apiToolInputVariables : List Variable
  agentAPITools : List Link
  creatorID : Option Int
deriving DecidableEq, Repr

/-! ### Operator path: `addApiTool` -/

structure OperatorInput where
  name : String
  description : String
  url : String
  httpMethod : String
  queryParamsInput : String
  headersInput : String
  wantsBody : Bool
  bodyInput : String
deriving DecidableEq, Repr

structure QPPair where
  key : String
  value : String
deriving DecidableEq, Repr

/-- Models `queryParamsInput.split(',')`, trim, drop empties, then per pair
`[key, ...rest] = pair.split('=')` with `key.trim()` and
`rest.join('=').trim()`, finally dropping pairs with an empty key. -/
def parseQueryParamsInput (s : String) : List QPPair :=
  ((((jsSplit ',' s).map jsTrim).filter
      (fun t => ¬ t = "")).map (fun pair =>
    match jsSplit '=' pair with
    | [] => { key := "", value := "" }
    | k :: rest =>
      { key := jsTrim k, value := jsTrim (jsJoinSep '=' rest) })).filter
    (fun qp => ¬ qp.key = "")

/-- Map with a fresh-id counter threaded left to right. -/
def mapCounter (f : Nat → α → β × Nat) : Nat → List α → List β × Nat
  | c, [] => ([], c)
  | c, a :: as =>
    let p := f c a
    let q := mapCounter f p.2 as
    (p.1 :: q.1, q.2)

/-- Models `headersInput.split(',')` (no trimming or filtering of the items), then
per item `[key, ...rest] = h.split(':')`, `value = rest.join(':').trim()`,
stored as a single literal text element. -/
def parseHeaders (hinput : String) (c : Nat) : List Header × Nat :=
  if ¬ jsTrim hinput = "" then
    mapCounter (fun c h =>
      match jsSplit ':' h with
      | [] => ({ id := c, key := "", value := [⟨[Seg.lit ""]⟩] }, c + 1)
      | k :: rest =>
        ({ id := c, key := jsTrim k,
           value := [⟨[Seg.lit (jsTrim (jsJoinSep ':' rest))]⟩] },
          c + 1)) c (jsSplit ',' hinput)
  else ([], c)

/-- The `variableIDs` creation loop of `addApiTool`: one fresh id per
(already deduplicated) name in order, pushing a variable record each and
building the name→id map. -/
def allocVars (descs : String → String) (toolId : Nat) :
    Nat → List String → List Variable × (String → Option Nat) × Nat
  | c, [] => ([], fun _ => none, c)
  | c, n :: ns =>
    let r := allocVars descs toolId (c + 1) ns
    ({ id := c, name := n, apiToolID := toolId, description := descs n } ::
        r.1,
      (fun m => if m = n then some c else r.2.1 m, r.2.2))

/-- JavaScript `Array.prototype.join('')` stringifies an object element as
`[object Object]`; literal strings join as themselves. -/
def segJoinStr : Seg → String
  | .lit s => s
  | .ref _ => "[object Object]"

def joinText (segs : List Seg) : String := String.join (segs.map segJoinStr)

/-- The expression `t.url && t.url[0] && t.url[0].text && t.url[0].text.join ?
t.url[0].text.join('') : ''` of the duplicate check. -/
def toolUrlJoined (t : Tool) : String :=
  match t.url with
  | [] => ""
  | g :: _ => joinText g.text

inductive AddErr where
  | DuplicateTool
deriving DecidableEq, Repr

/-- The operator path: the `addApiTool` command of `bin/vf-copilot.js` as a
pure function of the prompt answers.  The body editor is only opened when
the chosen method is post/put/patch and the user confirmed, so
`bodyTemplate` stays empty otherwise (the prompting structure of the
source).  `varDescs` are the per-variable description answers.  The
counter `c0` threads `generateMongoId` in source call order: tool id,
variable ids, query-parameter ids, header ids, link id.  A `DuplicateTool`
error models the early `return` before `saveVfFile`: the document is left
untouched.  (The source's inner `if (qp.key)` re-check is subsumed by the
parse-time filter.) -/
def addApiToolDup (inp : OperatorInput) (doc : VfData) : Bool :=
  doc.apiTools.any (fun t =>
    t.name == some inp.name || toolUrlJoined t == replaceVars inp.url)

/-- The body template actually collected by the prompts: the editor is only
opened when the chosen method is post/put/patch and the user confirmed. -/
def operatorBodyTemplate (inp : OperatorInput) : String :=
  if (jsToLower inp.httpMethod = "post" ∨ jsToLower inp.httpMethod = "put" ∨
      jsToLower inp.httpMethod = "patch") ∧ inp.wantsBody
  then inp.bodyInput else ""

/-- Models `Array.from(foundVars)`: the distinct placeholder names found across
url, query-parameter values and (when present) the body template, in
first-occurrence order. -/
def operatorAllVarNames (inp : OperatorInput) : List String :=
  firstDedup
    (extractVars inp.url ++
     ((parseQueryParamsInput inp.queryParamsInput).map
        (fun qp => extractVars qp.value)).flatten ++
     (if ¬ jsTrim (operatorBodyTemplate inp) = ""
      then extractVars (operatorBodyTemplate inp) else []))

/-- The variable-creation loop of the success branch (`apiToolID` is the
fresh tool id `c0`; variable ids follow from `c0 + 1`). -/
def operatorAlloc (inp : OperatorInput) (varDescs : String → String)
    (c0 : Nat) : List Variable × (String → Option Nat) × Nat :=
  allocVars varDescs c0 (c0 + 1) (operatorAllVarNames inp)

def operatorNewVars (inp : OperatorInput) (varDescs : String → String)
    (c0 : Nat) : List Variable :=
  (operatorAlloc inp varDescs c0).1

/-- The `variableIDs[name]` map used by the three tokenization loops (total
on the names found by the extraction pass). -/
def operatorLook (inp : OperatorInput) (varDescs : String → String)
    (c0 : Nat) : String → Nat :=
  fun n => (((operatorAlloc inp varDescs c0).2.1) n).getD 0

/-- The `queryParameters` build loop: each pair's value is tokenized into a
single `text` group. -/
def operatorQPs (inp : OperatorInput) (varDescs : String → String)
    (c0 : Nat) : List QueryParam × Nat :=
  mapCounter (fun c qp =>
    (({ id := c, key := qp.key,
        value := [⟨tokenize (operatorLook inp varDescs c0) qp.value⟩] }
        : QueryParam), c + 1))
    (operatorAlloc inp varDescs c0).2.2
    (parseQueryParamsInput inp.queryParamsInput)

def operatorHeaders (inp : OperatorInput) (varDescs : String → String)
    (c0 : Nat) : List Header × Nat :=
  parseHeaders inp.headersInput (operatorQPs inp varDescs c0).2

/-- The body build: only when the collected template has nonblank text. -/
def operatorBody (inp : OperatorInput) (varDescs : String → String)
    (c0 : Nat) : Option BodyV :=
  if ¬ jsTrim (operatorBodyTemplate inp) = "" then
    some { btype := some "raw-input",
           content := some (tokenize (operatorLook inp varDescs c0)
             (operatorBodyTemplate inp)),
           contentType := some "json" }
  else none

/-- The tool record pushed by the operator path. -/
def operatorTool (inp : OperatorInput) (varDescs : String → String)
    (doc : VfData) (c0 : Nat) : Tool :=
  { id := c0, name := some inp.name, description := inp.description,
    url := [⟨tokenize (operatorLook inp varDescs c0) inp.url⟩],
    httpMethod := inp.httpMethod,
    queryParameters := (operatorQPs inp varDescs c0).1,
    headers := (operatorHeaders inp varDescs c0).1,
    body := operatorBody inp varDescs c0, createdByID := doc.creatorID }

/-- The success branch of `addApiTool` (everything after the duplicate
check): push the variables, the tool, and one agent link. -/
def addApiToolBuild (inp : OperatorInput) (varDescs : String → String)
    (selectedAgentId : Nat) (doc : VfData) (c0 : Nat) : VfData × Nat :=
  ({ doc with
      apiToolInputVariables :=
        doc.apiToolInputVariables ++ operatorNewVars inp varDescs c0,
      apiTools := doc.apiTools ++ [operatorTool inp varDescs doc c0],
      agentAPITools := doc.agentAPITools ++
        [{ id := (operatorHeaders inp varDescs c0).2,
           agentID := selectedAgentId, apiToolID := c0 }] },
    (operatorHeaders inp varDescs c0).2 + 1)

def addApiTool (inp : OperatorInput) (varDescs : String → String)
    (selectedAgentId : Nat) (doc : VfData) (c0 : Nat) :
    Except AddErr (VfData × Nat) :=
  if addApiToolDup inp doc then .error .DuplicateTool
  else .ok (addApiToolBuild inp varDescs selectedAgentId doc c0)

theorem addApiTool_ok_build {inp : OperatorInput} {varDescs : String → String}
    {agentId : Nat} {doc : VfData} {c0 : Nat} {d : VfData} {c1 : Nat}
    (hok : addApiTool inp varDescs agentId doc c0 = .ok (d, c1)) :
    (d, c1) = addApiToolBuild inp varDescs agentId doc c0 := by
  unfold addApiTool at hok
  by_cases hdup : addApiToolDup inp doc
  · rw [if_pos hdup] at hok
    exact Except.noConfusion hok
  · rw [if_neg hdup] at hok
    exact (Except.ok.inj hok).symm

/-- C2 (corrected; operator path half of the amended claim).  When the
document already holds a tool with the same name, or one whose first url
group's `text` joined as JavaScript does (reference objects stringify to
`[object Object]`) equals the new url with every placeholder replaced by
the `{var}` wildcard, `addApiTool` reports `DuplicateTool`; as the
result is an error and the source returns before `saveVfFile`, the
document keeps its tool, variable and link collections unchanged. -/
theorem C2_operator_duplicate_rejected (inp : OperatorInput)
    (varDescs : String → String) (agentId : Nat) (doc : VfData) (c0 : Nat)
    (h : ∃ t ∈ doc.apiTools,
      t.name = some inp.name ∨ toolUrlJoined t = replaceVars inp.url) :
    addApiTool inp varDescs agentId doc c0 = .error .DuplicateTool := by
  have hdup : addApiToolDup inp doc = true := by
    unfold addApiToolDup
    rw [List.any_eq_true]
    obtain ⟨t, ht, hor⟩ := h
    refine ⟨t, ht, ?_⟩
    rcases hor with h1 | h1 <;> simp [h1]
  unfold addApiTool
  rw [if_pos hdup]

def toolA : Tool :=
  { id := 0, name := some "A", description := "",
    url := [⟨[Seg.lit "https://a.example"]⟩], httpMethod := "get",
    queryParameters := [], headers := [], body := none, createdByID := none }

/-- A one-tool document used by concrete instances below. -/
def docA : VfData :=
  { agents := [], apiTools := [toolA], apiToolInputVariables := [],
    agentAPITools := [], creatorID := none }

def inpA : OperatorInput :=
  { name := "A", description := "", url := "https://b.example",
    httpMethod := "get", queryParamsInput := "", headersInput := "",
    wantsBody := false, bodyInput := "" }

/-- Witness for C2's amended operator-path theorem: a same-name collision. -/
theorem C2_operator_duplicate_rejected_witness :
    (∃ t ∈ docA.apiTools,
      t.name = some inpA.name ∨ toolUrlJoined t = replaceVars inpA.url) ∧
    addApiTool inpA (fun _ => "") 9 docA 50 = .error .DuplicateTool :=
  ⟨⟨toolA, by simp [docA], Or.inl rfl⟩,
    C2_operator_duplicate_rejected _ _ _ _ _
      ⟨toolA, by simp [docA], Or.inl rfl⟩⟩

/-! ### Support lemmas: deduplication, allocation, reference provenance -/

theorem firstDedup_nil : firstDedup [] = [] := by rw [firstDedup]

theorem firstDedup_cons (x : String) (xs : List String) :
    firstDedup (x :: xs) = x :: firstDedup (xs.filter (fun y => ¬ y = x)) := by
  rw [firstDedup]

theorem mem_firstDedup_iff :
    ∀ (k : Nat) (l : List String), l.length ≤ k →
      ∀ x, x ∈ firstDedup l ↔ x ∈ l := by
  intro k
  induction k with
  | zero =>
    intro l hl x
    have : l = [] := List.length_eq_zero.mp (Nat.le_zero.mp hl)
    subst this
    rw [firstDedup_nil]
  | succ k ih =>
    intro l hl x
    cases l with
    | nil => rw [firstDedup_nil]
    | cons y ys =>
      rw [firstDedup_cons]
      have hlen : (ys.filter (fun y' => ¬ y' = y)).length ≤ k := by
        have h1 := List.length_filter_le (fun y' => decide (¬ y' = y)) ys
        simp only [List.length_cons] at hl
        omega
      constructor
      · intro hx
        rcases List.mem_cons.mp hx with h | h
        · simp [h]
        · have := (ih _ hlen x).mp h
          have := List.mem_filter.mp this
          simp [List.mem_cons, this.1]
      · intro hx
        rcases List.mem_cons.mp hx with h | h
        · simp [h]
        · by_cases hxy : x = y
          · simp [hxy]
          · refine List.mem_cons.mpr (Or.inr ?_)
            refine (ih _ hlen x).mpr ?_
            refine List.mem_filter.mpr ⟨h, ?_⟩
            simpa using hxy

theorem firstDedup_nodup :
    ∀ (k : Nat) (l : List String), l.length ≤ k → (firstDedup l).Nodup := by
  intro k
  induction k with
  | zero =>
    intro l hl
    have : l = [] := List.length_eq_zero.mp (Nat.le_zero.mp hl)
    subst this
    rw [firstDedup_nil]
    exact List.nodup_nil
  | succ k ih =>
    intro l hl
    cases l with
    | nil => rw [firstDedup_nil]; exact List.nodup_nil
    | cons y ys =>
      rw [firstDedup_cons]
      have hlen : (ys.filter (fun y' => ¬ y' = y)).length ≤ k := by
        have h1 := List.length_filter_le (fun y' => decide (¬ y' = y)) ys
        simp only [List.length_cons] at hl
        omega
      refine List.nodup_cons.mpr ⟨?_, ih _ hlen⟩
      intro hy
      have := (mem_firstDedup_iff _ _ hlen y).mp hy
      have := List.mem_filter.mp this
      simp at this

theorem allocVars_names (descs : String → String) (tid : Nat) :
    ∀ (ns : List String) (c : Nat),
      (allocVars descs tid c ns).1.map (fun v => v.name) = ns := by
  intro ns
  induction ns with
  | nil => intro c; rfl
  | cons n t ih => intro c; simp [allocVars, ih (c + 1)]

theorem allocVars_apiToolID (descs : String → String) (tid : Nat) :
    ∀ (ns : List String) (c : Nat) (v : Variable),
      v ∈ (allocVars descs tid c ns).1 → v.apiToolID = tid := by
  intro ns
  induction ns with
  | nil => intro c v hv; simp [allocVars] at hv
  | cons n t ih =>
    intro c v hv
    rcases List.mem_cons.mp hv with h | h
    · subst h; rfl
    · exact ih (c + 1) v h

theorem allocVars_look (descs : String → String) (tid : Nat) :
    ∀ (ns : List String) (c : Nat), ns.Nodup →
      ∀ n ∈ ns, ∃ v ∈ (allocVars descs tid c ns).1,
        v.name = n ∧ (allocVars descs tid c ns).2.1 n = some v.id := by
  intro ns
  induction ns with
  | nil => intro c _ n hn; simp at hn
  | cons m t ih =>
    intro c hnd n hn
    have hnd' := List.nodup_cons.mp hnd
    rcases List.mem_cons.mp hn with h | h
    · subst h
      refine ⟨Variable.mk c n tid (descs n), by simp [allocVars], rfl, ?_⟩
      simp [allocVars]
    · have hne : ¬ n = m := fun hc => hnd'.1 (hc ▸ h)
      obtain ⟨v, hv, hvn, hvl⟩ := ih (c + 1) hnd'.2 n h
      refine ⟨v, by simp [allocVars, hv], hvn, ?_⟩
      simp [allocVars, hne, hvl]

theorem mapCounter_mem {α β : Type} {f : Nat → α → β × Nat} :
    ∀ {as : List α} {c : Nat} {b : β}, b ∈ (mapCounter f c as).1 →
      ∃ c' a, a ∈ as ∧ b = (f c' a).1 := by
  intro as
  induction as with
  | nil => intro c b hb; simp [mapCounter] at hb
  | cons a t ih =>
    intro c b hb
    simp only [mapCounter] at hb
    rcases List.mem_cons.mp hb with h | h
    · exact ⟨c, a, by simp, h⟩
    · obtain ⟨c', a', ha', hb'⟩ := ih h
      exact ⟨c', a', by simp [ha'], hb'⟩

/-- Provenance of reference segments: every `ref` the segmentation loop
produces is `look` applied to a name the extraction pass finds in the same
string. -/
theorem tokenizeAux_refs :
    ∀ (k : Nat) (cs : List Char), cs.length ≤ k →
      ∀ (look : String → Nat) (acc : List Char) (i : Nat),
        Seg.ref i ∈ tokenizeAux look acc cs →
          ∃ n ∈ extractVarsAux cs, i = look n := by
  intro k
  induction k with
  | zero =>
    intro cs hcs look acc i hi
    have : cs = [] := List.length_eq_zero.mp (Nat.le_zero.mp hcs)
    subst this
    rw [tokenizeAux_nil] at hi
    split_ifs at hi <;> simp at hi
  | succ k ih =>
    intro cs hcs look acc i hi
    cases cs with
    | nil =>
      rw [tokenizeAux_nil] at hi
      split_ifs at hi <;> simp at hi
    | cons c t =>
      cases hm : matchVarAt (c :: t) with
      | some p =>
        obtain ⟨nm, rest⟩ := p
        have hrl : rest.length ≤ k := by
          have := matchVarAt_rest_length hm
          simp only [List.length_cons] at hcs this
          omega
        rw [tokenizeAux_match look acc c t rest nm hm] at hi
        rw [extractVarsAux_match c t rest nm hm]
        rcases List.mem_append.mp hi with h | h
        · split_ifs at h <;> simp at h
        · rcases List.mem_cons.mp h with h | h
          · exact ⟨nm, by simp, by injection h⟩
          · obtain ⟨n, hn, hni⟩ := ih rest hrl look [] i h
            exact ⟨n, by simp [hn], hni⟩
      | none =>
        have htl : t.length ≤ k := by
          simp only [List.length_cons] at hcs
          omega
        rw [tokenizeAux_nomatch look acc c t hm] at hi
        rw [extractVarsAux_nomatch c t hm]
        exact ih t htl look (acc ++ [c]) i hi

theorem tokenize_refs {look : String → Nat} {s : String} {i : Nat}
    (hi : Seg.ref i ∈ tokenize look s) : ∃ n ∈ extractVars s, i = look n :=
  tokenizeAux_refs s.data.length s.data (Nat.le_refl _) look [] i hi

def docEmpty : VfData :=
  { agents := [], apiTools := [], apiToolInputVariables := [],
    agentAPITools := [], creatorID := none }

/-- C5 (corrected; operator-path half of the amended claim).  The operator
path collects a body template only for post/put/patch (and user consent),
so any other method yields a tool with `body = none`; post/put/patch with
a nonblank template yields a populated `raw-input` body. -/
theorem C5_operator_body_gating (inp : OperatorInput)
    (varDescs : String → String) (agentId : Nat) (doc : VfData) (c0 : Nat)
    (d : VfData) (c1 : Nat)
    (hok : addApiTool inp varDescs agentId doc c0 = .ok (d, c1)) :
    d.apiTools = doc.apiTools ++ [operatorTool inp varDescs doc c0] ∧
    (¬ (jsToLower inp.httpMethod = "post" ∨ jsToLower inp.httpMethod = "put" ∨
        jsToLower inp.httpMethod = "patch") →
      (operatorTool inp varDescs doc c0).body = none) ∧
    ((jsToLower inp.httpMethod = "post" ∨ jsToLower inp.httpMethod = "put" ∨
        jsToLower inp.httpMethod = "patch") → inp.wantsBody = true →
      ¬ jsTrim inp.bodyInput = "" →
      (operatorTool inp varDescs doc c0).body =
        some { btype := some "raw-input",
               content := some (tokenize (operatorLook inp varDescs c0)
                 inp.bodyInput),
               contentType := some "json" }) := by
  have hb := addApiTool_ok_build hok
  have hd : d = (addApiToolBuild inp varDescs agentId doc c0).1 :=
    congrArg Prod.fst hb
  refine ⟨?_, ?_, ?_⟩
  · rw [hd]; rfl
  · intro hnm
    have hbt : operatorBodyTemplate inp = "" := by
      unfold operatorBodyTemplate
      rw [if_neg]
      rintro ⟨h1, -⟩
      exact hnm h1
    show operatorBody inp varDescs c0 = none
    unfold operatorBody
    rw [hbt]
    simp only [if_neg, ite_eq_right_iff]
    intro hc
    exact absurd (by decide : jsTrim "" = "") hc
  · intro hm hw hbne
    have hbt : operatorBodyTemplate inp = inp.bodyInput := by
      unfold operatorBodyTemplate
      rw [if_pos ⟨hm, hw⟩]
    show operatorBody inp varDescs c0 =
      some { btype := some "raw-input",
             content := some (tokenize (operatorLook inp varDescs c0)
               inp.bodyInput),
             contentType := some "json" }
    unfold operatorBody
    rw [hbt, if_pos hbne]

def inpB : OperatorInput :=
  { name := "B", description := "", url := "https://b.example/{v}",
    httpMethod := "post", queryParamsInput := "", headersInput := "",
    wantsBody := true, bodyInput := "x={v}" }

/-- Witness for C5's amended theorem at a post-with-body input. -/
theorem C5_operator_body_gating_witness :
    addApiTool inpB (fun _ => "") 3 docEmpty 10 =
      .ok ((addApiToolBuild inpB (fun _ => "") 3 docEmpty 10).1,
           (addApiToolBuild inpB (fun _ => "") 3 docEmpty 10).2) ∧
    ((addApiToolBuild inpB (fun _ => "") 3 docEmpty 10).1.apiTools =
      docEmpty.apiTools ++ [operatorTool inpB (fun _ => "") docEmpty 10] ∧
    (¬ (jsToLower inpB.httpMethod = "post" ∨ jsToLower inpB.httpMethod = "put" ∨
        jsToLower inpB.httpMethod = "patch") →
      (operatorTool inpB (fun _ => "") docEmpty 10).body = none) ∧
    ((jsToLower inpB.httpMethod = "post" ∨ jsToLower inpB.httpMethod = "put" ∨
        jsToLower inpB.httpMethod = "patch") → inpB.wantsBody = true →
      ¬ jsTrim inpB.bodyInput = "" →
      (operatorTool inpB (fun _ => "") docEmpty 10).body =
        some { btype := some "raw-input",
               content := some (tokenize (operatorLook inpB (fun _ => "") 10)
                 inpB.bodyInput),
               contentType := some "json" })) :=
  ⟨rfl, C5_operator_body_gating inpB (fun _ => "") 3 docEmpty 10 _ _ rfl⟩

/-- Every header the operator path builds carries a single literal text
element. -/
theorem parseHeaders_shape (hinput : String) (c : Nat) :
    ∀ hd ∈ (parseHeaders hinput c).1, ∃ s, hd.value = [⟨[Seg.lit s]⟩] := by
  intro hd hmem
  unfold parseHeaders at hmem
  split_ifs at hmem
  · simp at hmem
  · obtain ⟨c', a, -, hb⟩ := mapCounter_mem hmem
    subst hb
    cases hsp : jsSplit ':' a with
    | nil => exact ⟨"", by simp [hsp]⟩
    | cons k rest => exact ⟨jsTrim (jsJoinSep ':' rest), by simp [hsp]⟩

/-- C10 (confirmed).  Header values are never tokenized in the operator
path: every header of the built tool holds exactly one literal text
element (the text after the first ':', trimmed), and the created variable
set and the tokenized url and body of the tool do not depend on
`headersInput` at all — so placeholder syntax inside a header value
neither contributes a variable nor produces a reference segment. -/
theorem C10_headers_not_tokenized (inp : OperatorInput)
    (varDescs : String → String) (agentId : Nat) (doc : VfData) (c0 : Nat)
    (d : VfData) (c1 : Nat) (h' : String)
    (hok : addApiTool inp varDescs agentId doc c0 = .ok (d, c1)) :
    d.apiTools = doc.apiTools ++ [operatorTool inp varDescs doc c0] ∧
    d.apiToolInputVariables =
      doc.apiToolInputVariables ++ operatorNewVars inp varDescs c0 ∧
    (∀ hd ∈ (operatorTool inp varDescs doc c0).headers,
      ∃ s, hd.value = [⟨[Seg.lit s]⟩]) ∧
    operatorNewVars { inp with headersInput := h' } varDescs c0 =
      operatorNewVars inp varDescs c0 ∧
    (operatorTool { inp with headersInput := h' } varDescs doc c0).url =
      (operatorTool inp varDescs doc c0).url ∧
    (operatorTool { inp with headersInput := h' } varDescs doc c0).body =
      (operatorTool inp varDescs doc c0).body := by
  have hb := addApiTool_ok_build hok
  have hd : d = (addApiToolBuild inp varDescs agentId doc c0).1 :=
    congrArg Prod.fst hb
  refine ⟨by rw [hd]; rfl, by rw [hd]; rfl, ?_, rfl, rfl, rfl⟩
  intro hdr hmem
  exact parseHeaders_shape inp.headersInput _ hdr hmem

def inpH : OperatorInput :=
  { name := "H", description := "", url := "https://h.example",
    httpMethod := "get", queryParamsInput := "",
    headersInput := "Authorization:Bearer {secret}", wantsBody := false,
    bodyInput := "" }

/-- Witness for C10 at a header whose value contains placeholder syntax. -/
theorem C10_headers_not_tokenized_witness :
    addApiTool inpH (fun _ => "") 3 docEmpty 10 =
      .ok ((addApiToolBuild inpH (fun _ => "") 3 docEmpty 10).1,
           (addApiToolBuild inpH (fun _ => "") 3 docEmpty 10).2) ∧
    ((addApiToolBuild inpH (fun _ => "") 3 docEmpty 10).1.apiTools =
      docEmpty.apiTools ++ [operatorTool inpH (fun _ => "") docEmpty 10] ∧
    (addApiToolBuild inpH (fun _ => "") 3 docEmpty 10).1.apiToolInputVariables =
      docEmpty.apiToolInputVariables ++
        operatorNewVars inpH (fun _ => "") 10 ∧
    (∀ hd ∈ (operatorTool inpH (fun _ => "") docEmpty 10).headers,
      ∃ s, hd.value = [⟨[Seg.lit s]⟩]) ∧
    operatorNewVars { inpH with headersInput := "" } (fun _ => "") 10 =
      operatorNewVars inpH (fun _ => "") 10 ∧
    (operatorTool { inpH with headersInput := "" } (fun _ => "")
        docEmpty 10).url =
      (operatorTool inpH (fun _ => "") docEmpty 10).url ∧
    (operatorTool { inpH with headersInput := "" } (fun _ => "")
        docEmpty 10).body =
      (operatorTool inpH (fun _ => "") docEmpty 10).body) :=
  ⟨rfl, C10_headers_not_tokenized inpH (fun _ => "") 3 docEmpty 10 _ _ "" rfl⟩

theorem nodup_key_inj (f : Variable → String) :
    ∀ (l : List Variable), (l.map f).Nodup →
      ∀ v ∈ l, ∀ w ∈ l, f v = f w → v = w := by
  intro l
  induction l with
  | nil => intro _ v hv; simp at hv
  | cons a t ih =>
    intro hnd v hv w hw hf
    simp only [List.map_cons, List.nodup_cons] at hnd
    rcases List.mem_cons.mp hv with hva | hv' <;>
      rcases List.mem_cons.mp hw with hwa | hw'
    · rw [hva, hwa]
    · subst hva
      exfalso
      apply hnd.1
      rw [hf]
      exact List.mem_map_of_mem f hw'
    · subst hwa
      exfalso
      apply hnd.1
      rw [← hf]
      exact List.mem_map_of_mem f hv'
    · exact ih hnd.2 v hv' w hw' hf

/-- The three template sites feeding the `foundVars` set. -/
theorem mem_operatorAllVarNames {inp : OperatorInput} {n : String}
    (h : n ∈ extractVars inp.url ∨
      (∃ qp ∈ parseQueryParamsInput inp.queryParamsInput,
        n ∈ extractVars qp.value) ∨
      (¬ jsTrim (operatorBodyTemplate inp) = "" ∧
        n ∈ extractVars (operatorBodyTemplate inp))) :
    n ∈ operatorAllVarNames inp := by
  unfold operatorAllVarNames
  rw [mem_firstDedup_iff _ _ (Nat.le_refl _)]
  rcases h with h | ⟨qp, hqp, h⟩ | ⟨hb, h⟩
  · exact List.mem_append.mpr (Or.inl (List.mem_append.mpr (Or.inl h)))
  · refine List.mem_append.mpr (Or.inl (List.mem_append.mpr (Or.inr ?_)))
    exact List.mem_flatten.mpr ⟨_, List.mem_map_of_mem _ hqp, h⟩
  · refine List.mem_append.mpr (Or.inr ?_)
    rw [if_pos hb]
    exact h

/-- Every segment of a tool's url, query-parameter values and body. -/
def toolAllSegs (t : Tool) : List Seg :=
  (t.url.map (fun g => g.text)).flatten ++
  (t.queryParameters.map
    (fun qp => (qp.value.map (fun g => g.text)).flatten)).flatten ++
  (match t.body with
   | some b => b.content.getD []
   | none => [])

/-- C6 (confirmed).  Per-tool variable-name uniqueness in the operator
path: the created variables carry exactly the distinct placeholder names
found across url, query values and body, pairwise distinct; for each such
name there is exactly one created variable and the `variableIDs` map sends
the name to that variable's id; and every variable-reference segment of
the built tool's url, query values or body is the map's image of some
found name — so all references to one name share the one variable's id. -/
theorem C6_variable_name_uniqueness (inp : OperatorInput)
    (varDescs : String → String) (agentId : Nat) (doc : VfData) (c0 : Nat)
    (d : VfData) (c1 : Nat)
    (hok : addApiTool inp varDescs agentId doc c0 = .ok (d, c1)) :
    d.apiToolInputVariables =
      doc.apiToolInputVariables ++ operatorNewVars inp varDescs c0 ∧
    (operatorNewVars inp varDescs c0).map (fun v => v.name) =
      operatorAllVarNames inp ∧
    ((operatorNewVars inp varDescs c0).map (fun v => v.name)).Nodup ∧
    (∀ n ∈ operatorAllVarNames inp,
      ∃ v ∈ operatorNewVars inp varDescs c0, v.name = n ∧
        operatorLook inp varDescs c0 n = v.id ∧
        ∀ w ∈ operatorNewVars inp varDescs c0, w.name = n → w = v) ∧
    (∀ i, Seg.ref i ∈ toolAllSegs (operatorTool inp varDescs doc c0) →
      ∃ n ∈ operatorAllVarNames inp, i = operatorLook inp varDescs c0 n) := by
  have hb := addApiTool_ok_build hok
  have hd : d = (addApiToolBuild inp varDescs agentId doc c0).1 :=
    congrArg Prod.fst hb
  have hnames : (operatorNewVars inp varDescs c0).map (fun v => v.name) =
      operatorAllVarNames inp :=
    allocVars_names varDescs c0 (operatorAllVarNames inp) (c0 + 1)
  have hnodupAll : (operatorAllVarNames inp).Nodup :=
    firstDedup_nodup _ _ (Nat.le_refl _)
  have hnodup : ((operatorNewVars inp varDescs c0).map
      (fun v => v.name)).Nodup := by rw [hnames]; exact hnodupAll
  refine ⟨by rw [hd]; rfl, hnames, hnodup, ?_, ?_⟩
  · intro n hn
    obtain ⟨v, hv, hvn, hvl⟩ :=
      allocVars_look varDescs c0 (operatorAllVarNames inp) (c0 + 1)
        hnodupAll n hn
    refine ⟨v, hv, hvn, ?_, ?_⟩
    · show ((operatorAlloc inp varDescs c0).2.1 n).getD 0 = v.id
      rw [show (operatorAlloc inp varDescs c0).2.1 n =
          (allocVars varDescs c0 (c0 + 1) (operatorAllVarNames inp)).2.1 n
        from rfl, hvl]
      rfl
    · intro w hw hwn
      exact nodup_key_inj (fun v => v.name) _ hnodup w hw v hv (hwn.trans hvn.symm)
  · intro i hi
    unfold toolAllSegs operatorTool at hi
    simp only [List.map_cons, List.map_nil, List.flatten_cons,
      List.flatten_nil, List.append_nil, List.mem_append] at hi
    rcases hi with (hi | hi) | hi
    · obtain ⟨n, hn, hni⟩ := tokenize_refs hi
      exact ⟨n, mem_operatorAllVarNames (Or.inl hn), hni⟩
    · rw [List.mem_flatten] at hi
      obtain ⟨l, hl, hil⟩ := hi
      rw [List.mem_map] at hl
      obtain ⟨qp, hqp, hql⟩ := hl
      obtain ⟨c', pair, hpair, hqpv⟩ := mapCounter_mem hqp
      subst hqpv
      simp only at hql
      subst hql
      simp only [List.map_cons, List.map_nil, List.flatten_cons,
        List.flatten_nil, List.append_nil] at hil
      obtain ⟨n, hn, hni⟩ := tokenize_refs hil
      exact ⟨n, mem_operatorAllVarNames (Or.inr (Or.inl ⟨pair, hpair, hn⟩)),
        hni⟩
    · revert hi
      unfold operatorBody
      split_ifs with hbt
      · intro hi; simp at hi
      · intro hi
        simp only [Option.getD_some] at hi
        obtain ⟨n, hn, hni⟩ := tokenize_refs hi
        refine ⟨n, mem_operatorAllVarNames (Or.inr (Or.inr ⟨?_, hn⟩)), hni⟩
        simpa using hbt

/-- Witness for C6 at a template set referencing `v` in both url and body. -/
theorem C6_variable_name_uniqueness_witness :
    addApiTool inpB (fun _ => "") 3 docEmpty 10 =
      .ok ((addApiToolBuild inpB (fun _ => "") 3 docEmpty 10).1,
           (addApiToolBuild inpB (fun _ => "") 3 docEmpty 10).2) ∧
    ((addApiToolBuild inpB (fun _ => "") 3 docEmpty
        10).1.apiToolInputVariables =
      docEmpty.apiToolInputVariables ++
        operatorNewVars inpB (fun _ => "") 10 ∧
    (operatorNewVars inpB (fun _ => "") 10).map (fun v => v.name) =
      operatorAllVarNames inpB ∧
    ((operatorNewVars inpB (fun _ => "") 10).map (fun v => v.name)).Nodup ∧
    (∀ n ∈ operatorAllVarNames inpB,
      ∃ v ∈ operatorNewVars inpB (fun _ => "") 10, v.name = n ∧
        operatorLook inpB (fun _ => "") 10 n = v.id ∧
        ∀ w ∈ operatorNewVars inpB (fun _ => "") 10, w.name = n → w = v) ∧
    (∀ i, Seg.ref i ∈ toolAllSegs (operatorTool inpB (fun _ => "")
        docEmpty 10) →
      ∃ n ∈ operatorAllVarNames inpB,
        i = operatorLook inpB (fun _ => "") 10 n)) :=
  ⟨rfl, C6_variable_name_uniqueness inpB (fun _ => "") 3 docEmpty 10 _ _ rfl⟩

/-! ### Generator path: `addApiToolFromJson` (src/api-tool-templates.js)

The LLM payload is untrusted JSON.  The shapes the source distinguishes
are modelled as inductives; generator-supplied identifiers are numbers
like the fresh ones (their textual format is irrelevant to every claim).
A `variableID` field present on a segment object is modelled as always
truthy, as the 24-hex identifier strings of the prompts are. -/

structure VarCand where
  id : Nat
  name : Option String
  description : Option String
deriving DecidableEq, Repr

/-- The url field of a candidate: absent (or falsy), a plain string, an
array of `{ text: [...] }` groups, or an array of strings.  The empty
JavaScript array is `groups []` (`strList []` behaves identically in every
branch below). -/
inductive UrlField where
  | absent
  | str (s : String)
  | groups (gs : List TextGroup)
  | strList (ss : List String)
deriving DecidableEq, Repr

inductive QPValue where
  | vstr (s : String)
  | vgroups (gs : List TextGroup)
  | vabsent
deriving DecidableEq, Repr

structure QPCand where
  key : Option String
  name : Option String
  value : QPValue
deriving DecidableEq, Repr

/-- The tool-candidate object: the allowed field set plus the legacy
`method` field (which field projection drops before the rename check
reads it). -/
structure ToolCand where
  name : Option String
  description : Option String
  url : UrlField
  httpMethod : Option String
  method : Option String
  headers : Option (List Header)
  queryParameters : Option (List QPCand)
  body : Option BodyV
deriving DecidableEq, Repr

/-- The parsed top-level payload object: optional `apiTool` / `tool`
wrappers, the top-level object itself read as a tool candidate, and the
two variable-list keys. -/
structure AiJson where
  apiTool : Option ToolCand
  tool : Option ToolCand
  selfTool : ToolCand
  apiToolInputVariables : Option (List VarCand)
  variablesKey : Option (List VarCand)
deriving DecidableEq, Repr

/-- The envelope unwrap `aiJson.apiTool || aiJson.tool || aiJson`. -/
def aiToolObj (p : AiJson) : ToolCand :=
  p.apiTool.getD (p.tool.getD p.selfTool)

/-- The declaration list `aiJson.apiToolInputVariables || aiJson.variables || []` (an empty
array under the first key is truthy and wins; `variablesKey` models the
payload's `variables` key, which is a reserved word in Lean). -/
def aiDeclList (p : AiJson) : List VarCand :=
  match p.apiToolInputVariables with
  | some l => l
  | none => p.variablesKey.getD []

/-- Resolve a structured reference id against the declared list; a hit
contributes its name only when the name is present and nonempty
(JavaScript truthiness of `found.name`). -/
def refNameOf (p : AiJson) (vid : Nat) : List String :=
  match (aiDeclList p).find? (fun v => v.id = vid) with
  | some v =>
    match v.name with
    | some n => if n = "" then [] else [n]
    | none => []
  | none => []

/-- One url/body `text` part in the referenced-variable discovery: a
reference object is resolved only when the payload has the
`apiToolInputVariables` key (the source's guard); a string part is
scanned with the placeholder regex. -/
def scanPart (p : AiJson) : Seg → List String
  | .ref vid => if p.apiToolInputVariables.isSome then refNameOf p vid else []
  | .lit s => extractVars s

/-- The guard `url && Array.isArray(url) && url[0] && url[0].text`: only the
structured array-of-groups shape with a first group passes. -/
def urlTextParts (u : UrlField) : Option (List Seg) :=
  match u with
  | .groups (g :: _) => some g.text
  | _ => none

/-- The literal (concatenated-text) form of the url: string parts joined,
reference objects mapped to the empty string; a bare string url is taken
as is; anything else yields the empty string. -/
def urlStrOf (u : UrlField) : String :=
  match u with
  | .groups (g :: _) =>
    String.join (g.text.map (fun sg =>
      match sg with
      | .lit t => t
      | .ref _ => ""))
  | .str s => s
  | _ => ""

/-- Models `urlStr.indexOf('?')` and the two slices around the first hit. -/
def splitAtQuery : List Char → Option (List Char × List Char)
  | [] => none
  | c :: cs =>
    if c = '?' then some ([], cs)
    else (splitAtQuery cs).map (fun pr => (c :: pr.1, pr.2))

/-- Models `value.match(/^\{+([a-zA-Z0-9_]+)\}+$/)`: the anchored regex succeeds
exactly when the unanchored leftmost match starts at the head and
consumes everything. -/
def fullPlaceholder (cs : List Char) : Option String :=
  match matchVarAt cs with
  | some (nm, []) => some nm
  | _ => none

/-- Models `queryString.split('&').map(trim).filter(Boolean)` and per pair
`[key, value] = pair.split('=')` (`value` is the piece between the first
and second `=`, possibly missing). -/
def queryPairs (post : List Char) : List (String × Option String) :=
  (((jsSplitChar '&' post).map jsTrimChars).filter
    (fun t => ¬ t = [])).map (fun pair =>
      match jsSplitChar '=' pair with
      | [] => ("", none)
      | [k] => (String.mk k, none)
      | k :: v :: _ => (String.mk k, some (String.mk v)))

/-- Referenced-name discovery from the url's query string: keys must be
truthy and the whole value must match a single placeholder. -/
def queryRefNames (u : UrlField) : List String :=
  match splitAtQuery (urlStrOf u).data with
  | none => []
  | some pr =>
    ((queryPairs pr.2).map (fun kv =>
      if kv.1 = "" then []
      else match kv.2 with
        | some v =>
          match fullPlaceholder v.data with
          | some nm => [nm]
          | none => []
        | none => [])).flatten

/-- Referenced-name discovery from the body content (guarded on the body
having an array `content`). -/
def bodyRefNames (p : AiJson) (tc : ToolCand) : List String :=
  match tc.body with
  | some b =>
    match b.content with
    | some parts => (parts.map (scanPart p)).flatten
    | none => []
  | none => []

/-- The full `referencedVars` set (as a list; only membership is used). -/
def referencedNames (p : AiJson) : List String :=
  (match urlTextParts (aiToolObj p).url with
   | some parts => (parts.map (scanPart p)).flatten
   | none => []) ++
  queryRefNames (aiToolObj p).url ++
  bodyRefNames p (aiToolObj p)

/-- Models `variables.filter(v => referencedVars.has(v.name))`. -/
def survivingVars (p : AiJson) : List VarCand :=
  (aiDeclList p).filter (fun v =>
    match v.name with
    | some n => (referencedNames p).contains n
    | none => false)

/-- The array `newVariables`: one fresh id per surviving declared variable in order,
with the `var<idx+1>` fallback for falsy names and the empty-string
default for descriptions. -/
def genNewVarsAux (newToolId : Nat) : Nat → Nat → List VarCand →
    List Variable × Nat
  | c, _, [] => ([], c)
  | c, idx, v :: vs =>
    let r := genNewVarsAux newToolId (c + 1) (idx + 1) vs
    ({ id := c,
       name := match v.name with
               | some n => if n = "" then "var" ++ toString (idx + 1) else n
               | none => "var" ++ toString (idx + 1),
       apiToolID := newToolId,
       description := match v.description with
                      | some ds => ds
                      | none => "" } :: r.1, r.2)

/-- Models `Object.fromEntries(newVariables.map(v => [v.name, v.id]))`: on
duplicate names the last entry wins. -/
def lookupLast (l : List Variable) (n : String) : Option Nat :=
  (l.reverse.find? (fun v => v.name = n)).map (fun v => v.id)

inductive GenErr where
  | InvalidGeneratorOutput
  | TypeErrorCrash
deriving DecidableEq, Repr

/-- The query-parameter build loop over the pairs extracted from the url:
falsy keys are skipped; a whole-value placeholder with a known variable
name becomes a padded single reference; a whole-value placeholder with an
unknown name, or any other truthy value, becomes a literal; pairs with a
missing or empty value are dropped (an id is generated per emitted
parameter only, as in the source). -/
def genExtractQPs (look : String → Option Nat) :
    Nat → List (String × Option String) → List QueryParam × Nat
  | c, [] => ([], c)
  | c, kv :: rest =>
    if kv.1 = "" then genExtractQPs look c rest
    else
      match kv.2 with
      | some v =>
        match fullPlaceholder v.data with
        | some nm =>
          match look nm with
          | some vid =>
            let r := genExtractQPs look (c + 1) rest
            ({ id := c, key := kv.1,
               value := [⟨[Seg.lit "", Seg.ref vid, Seg.lit " "]⟩] } ::
              r.1, r.2)
          | none =>
            let r := genExtractQPs look (c + 1) rest
            ({ id := c, key := kv.1, value := [⟨[Seg.lit v]⟩] } :: r.1, r.2)
        | none =>
          if ¬ v = "" then
            let r := genExtractQPs look (c + 1) rest
            ({ id := c, key := kv.1, value := [⟨[Seg.lit v]⟩] } :: r.1, r.2)
          else genExtractQPs look c rest
      | none => genExtractQPs look c rest

/-- JavaScript `a || b` on an optional string (empty strings are falsy). -/
def orElseStr (a : Option String) (b : String) : String :=
  match a with
  | some s => if s = "" then b else s
  | none => b

/-- One step of the fallback normalization of a generator-supplied
query parameter (lines 273-317 of the source). -/
def genFallbackOne (look : String → Option Nat) (c : Nat) (idx : Nat)
    (qp : QPCand) : QueryParam :=
  let key := orElseStr qp.key (orElseStr qp.name
    ("param" ++ toString (idx + 1)))
  let variableName := orElseStr qp.name (orElseStr qp.key key)
  let refOrEmpty : QueryParam :=
    match look variableName with
    | some vid =>
      { id := c, key := key,
        value := [⟨[Seg.lit "", Seg.ref vid, Seg.lit " "]⟩] }
    | none => { id := c, key := key, value := [⟨[Seg.lit ""]⟩] }
  match qp.value with
  | .vstr sv => if ¬ sv = "" then
      { id := c, key := key, value := [⟨[Seg.lit sv]⟩] }
    else refOrEmpty
  | .vgroups [g] =>
    match g.text with
    | Seg.lit s0 :: restSegs =>
      if (Seg.lit s0 :: restSegs).any (fun sg =>
          match sg with
          | Seg.ref _ => true
          | Seg.lit _ => false)
      then refOrEmpty
      else { id := c, key := key, value := [⟨[Seg.lit s0]⟩] }
    | _ => refOrEmpty
  | _ => refOrEmpty

def genFallbackQPs (look : String → Option Nat) :
    Nat → Nat → List QPCand → List QueryParam × Nat
  | c, _, [] => ([], c)
  | c, idx, qp :: rest =>
    let r := genFallbackQPs look (c + 1) (idx + 1) rest
    (genFallbackOne look c idx qp :: r.1, r.2)

/-- Line 264 of the source: when the url is structured, its first `text`
slot is overwritten with the query-stripped joined string (JavaScript
index assignment extends an empty array). -/
def setFirstText (u : UrlField) (s : String) : UrlField :=
  match u with
  | .groups (g :: gs) =>
    .groups (⟨match g.text with
              | [] => [Seg.lit s]
              | _ :: t => Seg.lit s :: t⟩ :: gs)
  | other => other

/-- The url defaulting chain: `!url` (absent or empty string) becomes a
single empty text group; a bare string is wrapped; an array of strings
becomes one group with those strings as its text. -/
def defaultUrl (u : UrlField) : List TextGroup :=
  match u with
  | .absent => [⟨[Seg.lit ""]⟩]
  | .str s => if s = "" then [⟨[Seg.lit ""]⟩] else [⟨[Seg.lit s]⟩]
  | .groups gs => gs
  | .strList [] => []
  | .strList (s :: t) => [⟨(s :: t).map Seg.lit⟩]

/-- Models `s.split('?')[0]`. -/
def splitFirstQ (s : String) : String :=
  String.mk (s.data.takeWhile (fun c => ¬ c = '?'))

/-- Earliest `}}` in the text (the lazy `.*?` of the cleanup regex
cannot cross a newline, which aborts the match attempt entirely). -/
def findDoubleClose : List Char → Option (List Char × List Char)
  | [] => none
  | c :: rest =>
    if c = '}' ∧ rest.head? = some '}' then some ([], rest.tail)
    else if c = '\n' then none
    else
      match findDoubleClose rest with
      | some pr => some (c :: pr.1, pr.2)
      | none => none

theorem findDoubleClose_length :
    ∀ {l b a : List Char}, findDoubleClose l = some (b, a) →
      a.length ≤ l.length := by
  intro l
  induction l with
  | nil => intro b a h; simp [findDoubleClose] at h
  | cons c rest ih =>
    intro b a h
    unfold findDoubleClose at h
    split_ifs at h with h1 h2
    · simp only [Option.some.injEq, Prod.mk.injEq] at h
      obtain ⟨-, ha⟩ := h
      subst ha
      simp only [List.length_cons, List.length_tail]
      omega
    · cases hm : findDoubleClose rest with
      | some pr =>
        obtain ⟨b', a'⟩ := pr
        rw [hm] at h
        simp only [Option.some.injEq, Prod.mk.injEq] at h
        obtain ⟨-, ha⟩ := h
        subst ha
        have := ih hm
        simp only [List.length_cons]
        omega
      | none => rw [hm] at h; exact Option.noConfusion h

/-- Models `urlStr.replace(/\{\{(.*?)\}\}/g, ...)` collapsing `{{x}}`
to `{x}`: at each position, a double open brace matches up to the
earliest double close brace (lazy group), else scanning moves one
character forward. -/
def collapseBracesF : Nat → List Char → List Char
  | _, [] => []
  | 0, l => l
  | f + 1, c :: rest =>
    if c = '{' ∧ rest.head? = some '{' then
      match findDoubleClose rest.tail with
      | some pr => '{' :: (pr.1 ++ ['}']) ++ collapseBracesF f pr.2
      | none => '{' :: collapseBracesF f rest
    else c :: collapseBracesF f rest

/-- The replace loop run with enough fuel (`cs.length` steps always
suffice: each step consumes at least one character, and the fuel-indexed
form keeps the recursion structural so concrete runs compute inside the
kernel). -/
def collapseBracesAux (cs : List Char) : List Char :=
  collapseBracesF cs.length cs

def collapseBraces (s : String) : String :=
  String.mk (collapseBracesAux s.data)

/-- The final cleanup (lines 386-402): when the url has a first text
element, split it at `?` if queryParameters are nonempty and collapse
double braces; a non-string first element crashes the JavaScript with a
TypeError before the caller can save (modelled as an error). -/
def cleanupUrl (qpsNonempty : Bool) (gs : List TextGroup) :
    Except GenErr (List TextGroup) :=
  match gs with
  | [] => .ok []
  | g :: rest =>
    match g.text with
    | [] => .ok (g :: rest)
    | Seg.lit s :: t =>
      .ok (⟨Seg.lit (collapseBraces
        (if qpsNonempty then splitFirstQ s else s)) :: t⟩ :: rest)
    | Seg.ref _ :: _ => .error .TypeErrorCrash

/-- Fresh variable records of one generator run. -/
def genNewVars (p : AiJson) (c0 : Nat) : List Variable × Nat :=
  genNewVarsAux c0 (c0 + 1) 0 (survivingVars p)

/-- The query-extraction stage: parameters parsed out of the url string's
query part (with their fresh ids) and the url as updated by line 264. -/
def genExtraction (p : AiJson) (c0 : Nat) :
    List QueryParam × Nat × UrlField :=
  let look := lookupLast (genNewVars p c0).1
  match splitAtQuery (urlStrOf (aiToolObj p).url).data with
  | some pr =>
    let q := genExtractQPs look (genNewVars p c0).2 (queryPairs pr.2)
    (q.1, q.2, setFirstText (aiToolObj p).url (String.mk pr.1))
  | none => ([], (genNewVars p c0).2, (aiToolObj p).url)

/-- The tool's final queryParameters with the counter after them: the
extracted parameters replace the candidate's array when nonempty,
otherwise the candidate's array goes through the fallback normalization. -/
def genQPs (p : AiJson) (c0 : Nat) : List QueryParam × Nat :=
  if ¬ (genExtraction p c0).1 = [] then
    ((genExtraction p c0).1, (genExtraction p c0).2.1)
  else
    genFallbackQPs (lookupLast (genNewVars p c0).1) (genExtraction p c0).2.1
      0 ((aiToolObj p).queryParameters.getD [])

/-- The effective http method: field projection (allowed-fields filter)
drops the legacy `method` field before the
`!toolObj.httpMethod && toolObj.method` rename reads it, so that rename
never fires and a missing or empty `httpMethod` defaults to `get`
unvalidated. -/
def genHttpMethod (tc : ToolCand) : String :=
  match tc.httpMethod with
  | some m => if m = "" then "get" else m
  | none => "get"

/-- The assembled `newApiTool` object: projected/allowed fields with the
defaults the source fills in (`description` falls back to the empty
string, `httpMethod` to get, `headers` to an empty list), the freshly
extracted query parameters, and the hard-coded `createdByID = 3600`. -/
def genTool (p : AiJson) (c0 : Nat) (finalUrl : List TextGroup) : Tool :=
  { id := c0, name := (aiToolObj p).name,
    description := match (aiToolObj p).description with
                   | some ds => ds
                   | none => "",
    url := finalUrl, httpMethod := genHttpMethod (aiToolObj p),
    queryParameters := (genQPs p c0).1,
    headers := (aiToolObj p).headers.getD [],
    body := (aiToolObj p).body,
    createdByID := some 3600 }

/-- The pushes: variables, tool, and — only when the document has a first
agent — one link to it (whose id is the next `generateMongoId`). -/
def genBuild (p : AiJson) (doc : VfData) (c0 : Nat)
    (finalUrl : List TextGroup) : VfData × Nat :=
  let withTool : VfData := { doc with
    apiToolInputVariables :=
      doc.apiToolInputVariables ++ (genNewVars p c0).1,
    apiTools := doc.apiTools ++ [genTool p c0 finalUrl] }
  match doc.agents with
  | [] => (withTool, (genQPs p c0).2)
  | a :: _ =>
    ({ withTool with agentAPITools := withTool.agentAPITools ++
        [{ id := (genQPs p c0).2, agentID := a.id, apiToolID := c0 }] },
      (genQPs p c0).2 + 1)

/-- Models `addApiToolFromJson` on an already-object payload.  The source mutates
`vfData` in place but the final-cleanup TypeError (a reference object in
the url's first text slot) propagates to the caller before
`writeFileSync`, so an error leaves the persisted document unchanged;
the `Except` result models exactly that.  `generateMongoId` order: tool
id, variable ids, query-parameter ids, then the link id. -/
def genAdd (p : AiJson) (doc : VfData) (c0 : Nat) :
    Except GenErr (VfData × Nat) :=
  match cleanupUrl (¬ (genQPs p c0).1 = [])
      (defaultUrl (genExtraction p c0).2.2) with
  | .error e => .error e
  | .ok finalUrl => .ok (genBuild p doc c0 finalUrl)

theorem genAdd_ok {p : AiJson} {doc : VfData} {c0 : Nat} {d : VfData}
    {c1 : Nat} (hok : genAdd p doc c0 = .ok (d, c1)) :
    ∃ finalUrl, cleanupUrl (¬ (genQPs p c0).1 = [])
      (defaultUrl (genExtraction p c0).2.2) = .ok finalUrl ∧
      (d, c1) = genBuild p doc c0 finalUrl := by
  unfold genAdd at hok
  cases hm : cleanupUrl (¬ (genQPs p c0).1 = [])
      (defaultUrl (genExtraction p c0).2.2) with
  | error e => rw [hm] at hok; exact Except.noConfusion hok
  | ok u =>
    rw [hm] at hok
    exact ⟨u, rfl, (Except.ok.inj hok).symm⟩

/-- The JavaScript top-level values `addApiToolFromJson` may receive.  A
JSON array passes the `typeof === 'object'` guard but every tool or
variable field read on it is `undefined`, i.e. it behaves as the empty
payload. -/
inductive JsTop where
  | nullV
  | boolV (b : Bool)
  | numV (n : Int)
  | strV (s : String)
  | arrV
  | objV (p : AiJson)
deriving DecidableEq, Repr

def emptyToolCand : ToolCand :=
  { name := none, description := none, url := .absent, httpMethod := none,
    method := none, headers := none, queryParameters := none, body := none }

def emptyAiJson : AiJson :=
  { apiTool := none, tool := none, selfTool := emptyToolCand,
    apiToolInputVariables := none, variablesKey := none }

/-- Full `addApiToolFromJson`, including the
`if (!aiJson || typeof aiJson !== 'object') throw` guard, which runs
before any document mutation. -/
def addApiToolFromJson (j : JsTop) (doc : VfData) (c0 : Nat) :
    Except GenErr (VfData × Nat) :=
  match j with
  | .objV p => genAdd p doc c0
  | .arrV => genAdd emptyAiJson doc c0
  | _ => .error .InvalidGeneratorOutput

def tcC4 : ToolCand :=
  { name := some "Search", description := none,
    url := .str "https://api.example.com/search?status=active&user={userId}",
    httpMethod := some "get", method := none, headers := none,
    queryParameters := none, body := none }

def pC4 : AiJson :=
  { apiTool := none, tool := none, selfTool := tcC4,
    apiToolInputVariables := some [⟨1, some "userId", some "d"⟩],
    variablesKey := none }


def tcDup : ToolCand :=
  { name := some "A", description := none, url := .str "https://c.example",
    httpMethod := some "get", method := none, headers := none,
    queryParameters := none, body := none }

def pDup : AiJson :=
  { apiTool := some tcDup, tool := none, selfTool := emptyToolCand,
    apiToolInputVariables := none, variablesKey := none }


def tcC3 : ToolCand :=
  { name := some "T", description := none, url := .str "https://x/{a}",
    httpMethod := some "get", method := none, headers := none,
    queryParameters := none, body := none }

def pC3 : AiJson :=
  { apiTool := none, tool := none, selfTool := tcC3,
    apiToolInputVariables := some [⟨1, some "a", none⟩, ⟨2, some "b", none⟩],
    variablesKey := none }


def tcC4x : ToolCand :=
  { name := some "Q", description := none, url := .str "https://x?",
    httpMethod := some "get", method := none, headers := none,
    queryParameters := none, body := none }

def pC4x : AiJson :=
  { apiTool := none, tool := none, selfTool := tcC4x,
    apiToolInputVariables := none, variablesKey := none }


def tcC5x : ToolCand :=
  { name := some "G", description := none, url := .str "https://y.example",
    httpMethod := some "get", method := none, headers := none,
    queryParameters := none,
    body := some ⟨some "raw-input", some [Seg.lit "x"], some "json"⟩ }

def pC5x : AiJson :=
  { apiTool := none, tool := none, selfTool := tcC5x,
    apiToolInputVariables := none, variablesKey := none }


def tcC7x : ToolCand :=
  { name := some "M", description := none, url := .str "https://z.example",
    httpMethod := some "TELEPORT", method := none, headers := none,
    queryParameters := none, body := none }

def pC7x : AiJson :=
  { apiTool := none, tool := none, selfTool := tcC7x,
    apiToolInputVariables := none, variablesKey := none }


/-- Total accessors for concrete generator runs. -/
def genOk (r : Except GenErr (VfData × Nat)) : Bool :=
  match r with
  | .ok _ => true
  | .error _ => false

def genDoc (r : Except GenErr (VfData × Nat)) : VfData :=
  match r with
  | .ok pr => pr.1
  | .error _ => docEmpty

def genOut (p : AiJson) (doc : VfData) (c0 : Nat) : VfData × Nat :=
  match genAdd p doc c0 with
  | .ok r => r
  | .error _ => (doc, c0)

theorem genBuild_fst_apiTools (p : AiJson) (doc : VfData) (c0 : Nat)
    (u : List TextGroup) :
    (genBuild p doc c0 u).1.apiTools = doc.apiTools ++ [genTool p c0 u] := by
  unfold genBuild
  cases doc.agents <;> rfl

theorem genBuild_fst_vars (p : AiJson) (doc : VfData) (c0 : Nat)
    (u : List TextGroup) :
    (genBuild p doc c0 u).1.apiToolInputVariables =
      doc.apiToolInputVariables ++ (genNewVars p c0).1 := by
  unfold genBuild
  cases doc.agents <;> rfl

theorem genBuild_fst_links (p : AiJson) (doc : VfData) (c0 : Nat)
    (u : List TextGroup) :
    (genBuild p doc c0 u).1.agentAPITools =
      doc.agentAPITools ++
        (match doc.agents with
         | [] => []
         | a :: _ => [{ id := (genQPs p c0).2, agentID := a.id,
                        apiToolID := c0 }]) := by
  unfold genBuild
  cases doc.agents with
  | nil => simp
  | cons a t => rfl

/-- C9 (confirmed).  A null or non-object top-level value makes
`addApiToolFromJson` fail with the invalid-generator-output error; the
guard runs before any document mutation, so the document is untouched
(the error result carries no document). -/
theorem C9_invalid_input_rejected (j : JsTop) (doc : VfData) (c0 : Nat)
    (h : j = .nullV ∨ (∃ b, j = .boolV b) ∨ (∃ n, j = .numV n) ∨
      (∃ s, j = .strV s)) :
    addApiToolFromJson j doc c0 = .error .InvalidGeneratorOutput := by
  rcases h with rfl | ⟨b, rfl⟩ | ⟨n, rfl⟩ | ⟨s, rfl⟩ <;> rfl

/-- Witness for C9 at the null input. -/
theorem C9_invalid_input_rejected_witness :
    ((JsTop.nullV = JsTop.nullV ∨ (∃ b, JsTop.nullV = .boolV b) ∨
      (∃ n, JsTop.nullV = .numV n) ∨ (∃ s, JsTop.nullV = .strV s))) ∧
    addApiToolFromJson .nullV docEmpty 0 = .error .InvalidGeneratorOutput :=
  ⟨Or.inl rfl, C9_invalid_input_rejected .nullV docEmpty 0 (Or.inl rfl)⟩

/-- C7 (counterexample).  No method validation exists: a generator payload
with the unrecognized method `TELEPORT` is added without error and the
stored tool's `httpMethod` lies outside the claimed enumeration. -/
theorem C7_unrecognized_method_stored :
    (aiToolObj pC7x).httpMethod = some "TELEPORT" ∧
    genOk (genAdd pC7x docEmpty 100) = true ∧
    ((genDoc (genAdd pC7x docEmpty 100)).apiTools.headD toolA).httpMethod =
      "TELEPORT" ∧
    ¬ "TELEPORT" ∈ ["get", "post", "put", "patch", "delete"] := by
  exact ⟨rfl, by decide, by decide, by decide⟩

/-- C7 (corrected; the amended claim).  The generator path stores the
candidate's `httpMethod` verbatim, defaulting only a missing or empty
value to `get` (the legacy `method` rename is dead code — field projection
drops it first) and never failing; the operator path stores the chosen
method verbatim (the prompt's fixed list is what keeps it in the
enumeration). -/
theorem C7_method_unvalidated (p : AiJson) (doc : VfData) (c0 : Nat)
    (d : VfData) (c1 : Nat) (hok : genAdd p doc c0 = .ok (d, c1)) :
    ∃ u, d.apiTools = doc.apiTools ++ [genTool p c0 u] ∧
      (genTool p c0 u).httpMethod = genHttpMethod (aiToolObj p) ∧
      (∀ m, (aiToolObj p).httpMethod = some m → ¬ m = "" →
        (genTool p c0 u).httpMethod = m) ∧
      ((aiToolObj p).httpMethod = none →
        (genTool p c0 u).httpMethod = "get") := by
  obtain ⟨u, hc, hb⟩ := genAdd_ok hok
  have hd : d = (genBuild p doc c0 u).1 := congrArg Prod.fst hb
  refine ⟨u, by rw [hd]; exact genBuild_fst_apiTools p doc c0 u, rfl, ?_, ?_⟩
  · intro m hm hne
    show genHttpMethod (aiToolObj p) = m
    unfold genHttpMethod
    rw [hm]
    simp [hne]
  · intro hm
    show genHttpMethod (aiToolObj p) = "get"
    unfold genHttpMethod
    rw [hm]

/-- Witness for C7's amended claim at the `TELEPORT` payload. -/
theorem C7_method_unvalidated_witness :
    genAdd pC7x docEmpty 100 =
      .ok ((genOut pC7x docEmpty 100).1, (genOut pC7x docEmpty 100).2) ∧
    (∃ u, (genOut pC7x docEmpty 100).1.apiTools =
        docEmpty.apiTools ++ [genTool pC7x 100 u] ∧
      (genTool pC7x 100 u).httpMethod = genHttpMethod (aiToolObj pC7x) ∧
      (∀ m, (aiToolObj pC7x).httpMethod = some m → ¬ m = "" →
        (genTool pC7x 100 u).httpMethod = m) ∧
      ((aiToolObj pC7x).httpMethod = none →
        (genTool pC7x 100 u).httpMethod = "get")) :=
  ⟨rfl, C7_method_unvalidated pC7x docEmpty 100 _ _ rfl⟩

/-- C8 (counterexample).  A successful generator add against a document
with no agents appends the tool but no agent-tool link at all, where the
claim demands exactly one link per successful add. -/
theorem C8_no_agent_no_link :
    genOk (genAdd pDup docEmpty 100) = true ∧
    (genDoc (genAdd pDup docEmpty 100)).apiTools.length = 1 ∧
    (genDoc (genAdd pDup docEmpty 100)).agentAPITools = [] := by
  exact ⟨by decide, by decide, by decide⟩

/-- C8 (corrected; the amended claim).  The operator path appends exactly
one link bearing the selected agent id; the generator path appends one
link bearing the document's first agent's id when the document has an
agent, and no link otherwise (no agent id is supplied to it at all). -/
theorem C8_link_creation :
    (∀ (inp : OperatorInput) (varDescs : String → String) (agentId : Nat)
      (doc : VfData) (c0 : Nat) (d : VfData) (c1 : Nat),
      addApiTool inp varDescs agentId doc c0 = .ok (d, c1) →
      d.agentAPITools = doc.agentAPITools ++
        [{ id := (operatorHeaders inp varDescs c0).2, agentID := agentId,
           apiToolID := c0 }]) ∧
    (∀ (p : AiJson) (doc : VfData) (c0 : Nat) (d : VfData) (c1 : Nat),
      genAdd p doc c0 = .ok (d, c1) →
      d.agentAPITools = doc.agentAPITools ++
        (match doc.agents with
         | [] => []
         | a :: _ => [{ id := (genQPs p c0).2, agentID := a.id,
                        apiToolID := c0 }])) := by
  constructor
  · intro inp varDescs agentId doc c0 d c1 hok
    have hb := addApiTool_ok_build hok
    have hd : d = (addApiToolBuild inp varDescs agentId doc c0).1 :=
      congrArg Prod.fst hb
    rw [hd]
    rfl
  · intro p doc c0 d c1 hok
    obtain ⟨u, hc, hb⟩ := genAdd_ok hok
    have hd : d = (genBuild p doc c0 u).1 := congrArg Prod.fst hb
    rw [hd]
    exact genBuild_fst_links p doc c0 u

/-- Witness for C8's amended claim: an operator add (selected agent 7) and
a generator add against an agentless document. -/
theorem C8_link_creation_witness :
    (addApiTool inpB (fun _ => "") 7 docEmpty 10 =
      .ok ((addApiToolBuild inpB (fun _ => "") 7 docEmpty 10).1,
           (addApiToolBuild inpB (fun _ => "") 7 docEmpty 10).2) ∧
    (addApiToolBuild inpB (fun _ => "") 7 docEmpty 10).1.agentAPITools =
      docEmpty.agentAPITools ++
        [{ id := (operatorHeaders inpB (fun _ => "") 10).2, agentID := 7,
           apiToolID := 10 }]) ∧
    (genAdd pDup docEmpty 100 =
      .ok ((genOut pDup docEmpty 100).1, (genOut pDup docEmpty 100).2) ∧
    (genOut pDup docEmpty 100).1.agentAPITools =
      docEmpty.agentAPITools ++
        (match docEmpty.agents with
         | [] => []
         | a :: _ => [{ id := (genQPs pDup 100).2, agentID := a.id,
                        apiToolID := 100 }])) :=
  ⟨⟨rfl, C8_link_creation.1 inpB (fun _ => "") 7 docEmpty 10 _ _ rfl⟩,
   ⟨rfl, C8_link_creation.2 pDup docEmpty 100 _ _ rfl⟩⟩

/-- C2 (counterexample).  The generator path performs no duplicate check:
adding a tool named `A` to a document already holding a tool named `A`
succeeds and grows the tool collection, where the claim demands a
`DuplicateTool` rejection with no mutation. -/
theorem C2_generator_duplicate_added :
    toolA ∈ docA.apiTools ∧ toolA.name = some "A" ∧
    (aiToolObj pDup).name = some "A" ∧
    genOk (genAdd pDup docA 100) = true ∧
    (genDoc (genAdd pDup docA 100)).apiTools.length = 2 := by
  exact ⟨by decide, rfl, rfl, by decide, by decide⟩

/-- C5 (counterexample).  The generator path applies no body gating: a
candidate with method `get` and a raw-input body is stored with that body
populated, where the claim demands `body = none` for non-mutating
methods. -/
theorem C5_generator_body_not_gated :
    genHttpMethod (aiToolObj pC5x) = "get" ∧
    genOk (genAdd pC5x docEmpty 100) = true ∧
    ((genDoc (genAdd pC5x docEmpty 100)).apiTools.headD toolA).body =
      some ⟨some "raw-input", some [Seg.lit "x"], some "json"⟩ := by
  exact ⟨rfl, by decide, by decide⟩

/-! ### C3: unreferenced-variable filtering -/

theorem matchVarAt_name_ne {cs rest : List Char} {nm : String}
    (h : matchVarAt cs = some (nm, rest)) : ¬ nm = "" := by
  unfold matchVarAt at h
  split_ifs at h with h1 h2 h3
  simp only [Option.some.injEq, Prod.mk.injEq] at h
  obtain ⟨hnm, -⟩ := h
  intro hc
  rw [hc] at hnm
  have : ((cs.dropWhile (fun c => c == '{')).takeWhile isNameChar) = [] := by
    have := congrArg String.data hnm
    simpa using this.symm
  rw [this] at h2
  simp at h2

theorem extractVars_ne_empty :
    ∀ (k : Nat) (cs : List Char), cs.length ≤ k →
      ∀ n ∈ extractVarsAux cs, ¬ n = "" := by
  intro k
  induction k with
  | zero =>
    intro cs hcs n hn
    have : cs = [] := List.length_eq_zero.mp (Nat.le_zero.mp hcs)
    subst this
    rw [extractVarsAux_nil] at hn
    simp at hn
  | succ k ih =>
    intro cs hcs n hn
    cases cs with
    | nil => rw [extractVarsAux_nil] at hn; simp at hn
    | cons c t =>
      cases hm : matchVarAt (c :: t) with
      | some pr =>
        obtain ⟨nm, rest⟩ := pr
        rw [extractVarsAux_match c t rest nm hm] at hn
        rcases List.mem_cons.mp hn with rfl | hn'
        · exact matchVarAt_name_ne hm
        · have hrl : rest.length ≤ k := by
            have := matchVarAt_rest_length hm
            simp only [List.length_cons] at hcs this
            omega
          exact ih rest hrl n hn'
      | none =>
        rw [extractVarsAux_nomatch c t hm] at hn
        have htl : t.length ≤ k := by
          simp only [List.length_cons] at hcs
          omega
        exact ih t htl n hn

theorem scanPart_ne_empty (p : AiJson) (sg : Seg) :
    ∀ n ∈ scanPart p sg, ¬ n = "" := by
  intro n hn
  cases sg with
  | ref vid =>
    unfold scanPart at hn
    dsimp only at hn
    split_ifs at hn
    · unfold refNameOf at hn
      rcases hf : (aiDeclList p).find? (fun v => v.id = vid) with - | v
      · rw [hf] at hn
        simp at hn
      · rw [hf] at hn
        dsimp only at hn
        rcases hv : v.name with - | m
        · rw [hv] at hn
          simp at hn
        · rw [hv] at hn
          dsimp only at hn
          by_cases hm : m = ""
          · rw [if_pos hm] at hn
            simp at hn
          · rw [if_neg hm] at hn
            rcases List.mem_singleton.mp hn with rfl
            exact hm
    · simp at hn
  | lit str =>
    exact extractVars_ne_empty str.data.length str.data (Nat.le_refl _) n hn

theorem fullPlaceholder_ne_empty {cs : List Char} {nm : String}
    (h : fullPlaceholder cs = some nm) : ¬ nm = "" := by
  unfold fullPlaceholder at h
  rcases hm : matchVarAt cs with - | pr
  · rw [hm] at h; exact Option.noConfusion h
  · obtain ⟨nm', rest⟩ := pr
    rw [hm] at h
    cases rest with
    | nil =>
      simp only [Option.some.injEq] at h
      subst h
      exact matchVarAt_name_ne hm
    | cons a t => simp at h

theorem referencedNames_ne_empty (p : AiJson) :
    ∀ n ∈ referencedNames p, ¬ n = "" := by
  intro n hn
  unfold referencedNames at hn
  rcases List.mem_append.mp hn with hn | hn
  rcases List.mem_append.mp hn with hn | hn
  · revert hn
    rcases hu : urlTextParts (aiToolObj p).url with - | parts
    · intro hn; simp at hn
    · intro hn
      rw [List.mem_flatten] at hn
      obtain ⟨l, hl, hnl⟩ := hn
      rw [List.mem_map] at hl
      obtain ⟨sg, -, hsg⟩ := hl
      subst hsg
      exact scanPart_ne_empty p sg n hnl
  · unfold queryRefNames at hn
    rcases hq : splitAtQuery (urlStrOf (aiToolObj p).url).data with - | pr
    · rw [hq] at hn; simp at hn
    · rw [hq] at hn
      rw [List.mem_flatten] at hn
      obtain ⟨l, hl, hnl⟩ := hn
      rw [List.mem_map] at hl
      obtain ⟨kv, -, hkv⟩ := hl
      subst hkv
      revert hnl
      split_ifs with hk
      · intro hnl; simp at hnl
      · rcases kv.2 with - | v
        · intro hnl; simp at hnl
        · rcases hf : fullPlaceholder v.data with - | nm
          · simp only [hf]; intro hnl; simp at hnl
          · simp only [hf]
            intro hnl
            rcases List.mem_singleton.mp hnl with rfl
            exact fullPlaceholder_ne_empty hf
  · unfold bodyRefNames at hn
    rcases hb : (aiToolObj p).body with - | b
    · rw [hb] at hn; simp at hn
    · rw [hb] at hn
      dsimp only at hn
      rcases hc : b.content with - | parts
      · rw [hc] at hn; simp at hn
      · rw [hc] at hn
        dsimp only at hn
        rw [List.mem_flatten] at hn
        obtain ⟨l, hl, hnl⟩ := hn
        rw [List.mem_map] at hl
        obtain ⟨sg, -, hsg⟩ := hl
        subst hsg
        exact scanPart_ne_empty p sg n hnl

/-- Every variable surviving the filter carries a nonempty declared name
that is in the referenced set. -/
theorem survivingVars_names (p : AiJson) :
    ∀ v ∈ survivingVars p, ∃ n, v.name = some n ∧ ¬ n = "" ∧
      ((referencedNames p).contains n) = true := by
  intro v hv
  unfold survivingVars at hv
  have hv' := List.mem_filter.mp hv
  rcases hname : v.name with - | n
  · rw [hname] at hv'; simp at hv'
  · refine ⟨n, rfl, ?_, ?_⟩
    · have hc : ((referencedNames p).contains n) = true := by
        have := hv'.2
        rw [hname] at this
        exact this
      have : n ∈ referencedNames p := by
        simpa using hc
      exact referencedNames_ne_empty p n this
    · have := hv'.2
      rw [hname] at this
      exact this

theorem genNewVarsAux_names (tid : Nat) :
    ∀ (vs : List VarCand) (c idx : Nat),
      (∀ v ∈ vs, ∃ n, v.name = some n ∧ ¬ n = "") →
      ((genNewVarsAux tid c idx vs).1).map (fun w => w.name) =
        vs.map (fun v => v.name.getD "") := by
  intro vs
  induction vs with
  | nil => intro c idx _; rfl
  | cons v t ih =>
    intro c idx hnames
    obtain ⟨n, hn, hne⟩ := hnames v (by simp)
    simp only [genNewVarsAux, List.map_cons]
    rw [ih (c + 1) (idx + 1) (fun w hw => hnames w (by simp [hw]))]
    rw [hn]
    simp [hne]

theorem genNewVarsAux_mem (tid : Nat) :
    ∀ (vs : List VarCand) (c idx : Nat),
      (∀ v ∈ vs, ∃ n, v.name = some n ∧ ¬ n = "") →
      ∀ w ∈ (genNewVarsAux tid c idx vs).1,
        ∃ v ∈ vs, v.name = some w.name := by
  intro vs
  induction vs with
  | nil => intro c idx _ w hw; simp [genNewVarsAux] at hw
  | cons v t ih =>
    intro c idx hnames w hw
    simp only [genNewVarsAux] at hw
    rcases List.mem_cons.mp hw with rfl | hw'
    · obtain ⟨n, hn, hne⟩ := hnames v (by simp)
      refine ⟨v, by simp, ?_⟩
      rw [hn]
      simp [hne]
    · obtain ⟨v', hv', hn'⟩ :=
        ih (c + 1) (idx + 1) (fun u hu => hnames u (by simp [hu])) w hw'
      exact ⟨v', by simp [hv'], hn'⟩

theorem genNewVarsAux_names_mem (tid : Nat) :
    ∀ (vs : List VarCand) (c idx : Nat) (v : VarCand) (n : String),
      v ∈ vs → v.name = some n → ¬ n = "" →
      ∃ w ∈ (genNewVarsAux tid c idx vs).1, w.name = n := by
  intro vs
  induction vs with
  | nil => intro c idx v n hv; simp at hv
  | cons u t ih =>
    intro c idx v n hv hn hne
    simp only [genNewVarsAux]
    rcases List.mem_cons.mp hv with rfl | hv'
    · refine ⟨_, List.mem_cons_self _ _, ?_⟩
      show (match v.name with
        | some m => if m = "" then "var" ++ toString (idx + 1) else m
        | none => "var" ++ toString (idx + 1)) = n
      rw [hn]
      simp [hne]
    · obtain ⟨w, hw, hwn⟩ := ih (c + 1) (idx + 1) v n hv' hn hne
      exact ⟨w, by simp [hw], hwn⟩

/-- C3 (corrected; the amended claim).  Exactly the declared variables
whose names land in the computed referenced set survive into the
document: unreferenced declared names never appear among the appended
variables, referenced declared names always do, and every appended
variable originates in a declared one whose name is referenced.  (The
referenced set counts a structured url/body reference only when the
declaration list sits under the `apiToolInputVariables` key, and never
scans a bare-string url's path.) -/
theorem C3_unreferenced_filtering (p : AiJson) (doc : VfData) (c0 : Nat)
    (d : VfData) (c1 : Nat) (hok : genAdd p doc c0 = .ok (d, c1)) :
    d.apiToolInputVariables =
      doc.apiToolInputVariables ++ (genNewVars p c0).1 ∧
    ((genNewVars p c0).1).map (fun w => w.name) =
      (survivingVars p).map (fun v => v.name.getD "") ∧
    (∀ w ∈ (genNewVars p c0).1, ∃ v ∈ aiDeclList p,
      v.name = some w.name ∧
      ((referencedNames p).contains w.name) = true) ∧
    (∀ v ∈ aiDeclList p, ∀ n, v.name = some n →
      ((referencedNames p).contains n) = false →
      ∀ w ∈ (genNewVars p c0).1, ¬ w.name = n) ∧
    (∀ v ∈ aiDeclList p, ∀ n, v.name = some n →
      ((referencedNames p).contains n) = true →
      ∃ w ∈ (genNewVars p c0).1, w.name = n) := by
  obtain ⟨u, hc, hb⟩ := genAdd_ok hok
  have hd : d = (genBuild p doc c0 u).1 := congrArg Prod.fst hb
  have hsurv := survivingVars_names p
  have hgood : ∀ v ∈ survivingVars p, ∃ n, v.name = some n ∧ ¬ n = "" := by
    intro v hv
    obtain ⟨n, h1, h2, -⟩ := hsurv v hv
    exact ⟨n, h1, h2⟩
  have hmem : ∀ w ∈ (genNewVars p c0).1, ∃ v ∈ survivingVars p,
      v.name = some w.name :=
    genNewVarsAux_mem c0 (survivingVars p) (c0 + 1) 0 hgood
  refine ⟨?_, ?_, ?_, ?_, ?_⟩
  · rw [hd]; exact genBuild_fst_vars p doc c0 u
  · exact genNewVarsAux_names c0 (survivingVars p) (c0 + 1) 0 hgood
  · intro w hw
    obtain ⟨v, hv, hn⟩ := hmem w hw
    have hv' := List.mem_filter.mp hv
    refine ⟨v, hv'.1, hn, ?_⟩
    have h2 := hv'.2
    rw [hn] at h2
    dsimp only at h2
    exact h2
  · intro v hv n hn hfalse w hw hwn
    obtain ⟨v', hv', hn'⟩ := hmem w hw
    have h2 := (List.mem_filter.mp hv').2
    rw [hn'] at h2
    dsimp only at h2
    rw [hwn] at h2
    rw [hfalse] at h2
    exact Bool.noConfusion h2
  · intro v hv n hn htrue
    have hvs : v ∈ survivingVars p := by
      unfold survivingVars
      refine List.mem_filter.mpr ⟨hv, ?_⟩
      show (match v.name with
        | some n => (referencedNames p).contains n
        | none => false) = true
      rw [hn]
      exact htrue
    have hne : ¬ n = "" := by
      obtain ⟨m, hm1, hm2, -⟩ := hsurv v hvs
      rw [hn] at hm1
      injection hm1 with hm1
      rw [← hm1] at hm2
      exact hm2
    exact genNewVarsAux_names_mem c0 (survivingVars p) (c0 + 1) 0 v n hvs
      hn hne

/-- C3 (counterexample).  A payload whose url is the bare string
`https://x/{a}` and which declares variables `a` and `b` yields no
variables at all: the discovery step never scans a bare-string url (only
structured text parts, the query string and the body are scanned), so
`a`, referenced in string placeholder form, is dropped where the claim
requires it to be the sole survivor. -/
theorem C3_bare_string_url_variable_dropped :
    (aiToolObj pC3).url = .str "https://x/{a}" ∧
    (aiDeclList pC3).map (fun v => v.name) = [some "a", some "b"] ∧
    genOk (genAdd pC3 docEmpty 100) = true ∧
    (genDoc (genAdd pC3 docEmpty 100)).apiToolInputVariables = [] := by
  exact ⟨rfl, rfl, by decide, by decide⟩

def tcC3w : ToolCand :=
  { name := some "W", description := none,
    url := .groups [⟨[Seg.lit "https://x/{a}"]⟩], httpMethod := some "get",
    method := none, headers := none, queryParameters := none, body := none }

def pC3w : AiJson :=
  { apiTool := none, tool := none, selfTool := tcC3w,
    apiToolInputVariables := some [⟨1, some "a", none⟩, ⟨2, some "b", none⟩],
    variablesKey := none }

/-- Witness for C3's amended claim: a structured url referencing `a` with
declarations `a`, `b` — exactly the single variable `a` survives. -/
theorem C3_unreferenced_filtering_witness :
    genAdd pC3w docEmpty 100 =
      .ok ((genOut pC3w docEmpty 100).1, (genOut pC3w docEmpty 100).2) ∧
    ((genOut pC3w docEmpty 100).1.apiToolInputVariables =
      docEmpty.apiToolInputVariables ++ (genNewVars pC3w 100).1 ∧
    ((genNewVars pC3w 100).1).map (fun w => w.name) =
      (survivingVars pC3w).map (fun v => v.name.getD "") ∧
    (∀ w ∈ (genNewVars pC3w 100).1, ∃ v ∈ aiDeclList pC3w,
      v.name = some w.name ∧
      ((referencedNames pC3w).contains w.name) = true) ∧
    (∀ v ∈ aiDeclList pC3w, ∀ n, v.name = some n →
      ((referencedNames pC3w).contains n) = false →
      ∀ w ∈ (genNewVars pC3w 100).1, ¬ w.name = n) ∧
    (∀ v ∈ aiDeclList pC3w, ∀ n, v.name = some n →
      ((referencedNames pC3w).contains n) = true →
      ∃ w ∈ (genNewVars pC3w 100).1, w.name = n)) ∧
    ((genNewVars pC3w 100).1).map (fun w => w.name) = ["a"] :=
  ⟨rfl, C3_unreferenced_filtering pC3w docEmpty 100 _ _ rfl, by decide⟩

/-! ### C4: query-string extraction from the url -/

theorem splitAtQuery_spec :
    ∀ {cs pre post : List Char}, splitAtQuery cs = some (pre, post) →
      cs = pre ++ '?' :: post ∧ ∀ c ∈ pre, ¬ c = '?' := by
  intro cs
  induction cs with
  | nil => intro pre post h; simp [splitAtQuery] at h
  | cons c t ih =>
    intro pre post h
    unfold splitAtQuery at h
    split_ifs at h with hc
    · simp only [Option.some.injEq, Prod.mk.injEq] at h
      obtain ⟨h1, h2⟩ := h
      subst h1
      subst h2
      subst hc
      exact ⟨rfl, by simp⟩
    · cases hm : splitAtQuery t with
      | none => rw [hm] at h; simp at h
      | some pr =>
        obtain ⟨b, a⟩ := pr
        rw [hm] at h
        simp only [Option.map_some', Option.some.injEq, Prod.mk.injEq] at h
        obtain ⟨h1, h2⟩ := h
        subst h1
        subst h2
        obtain ⟨hd, hf⟩ := ih hm
        refine ⟨by rw [hd]; rfl, ?_⟩
        intro x hx
        rcases List.mem_cons.mp hx with rfl | hx'
        · exact hc
        · exact hf x hx'

theorem splitFirstQ_of_split {s : String} {pre post : List Char}
    (h : splitAtQuery s.data = some (pre, post)) :
    splitFirstQ s = String.mk pre := by
  obtain ⟨hdecomp, hfree⟩ := splitAtQuery_spec h
  unfold splitFirstQ
  rw [hdecomp]
  congr 1
  exact (span_app _ pre ('?' :: post)
    (by intro c hc; simpa using hfree c hc)
    (by
      intro d hd
      simp only [List.head?_cons, Option.some.injEq] at hd
      subst hd
      simp)).1

theorem findDoubleClose_decomp :
    ∀ {l b a : List Char}, findDoubleClose l = some (b, a) →
      l = b ++ '}' :: '}' :: a := by
  intro l
  induction l with
  | nil => intro b a h; simp [findDoubleClose] at h
  | cons c rest ih =>
    intro b a h
    unfold findDoubleClose at h
    split_ifs at h with h1 h2
    · simp only [Option.some.injEq, Prod.mk.injEq] at h
      obtain ⟨hb, ha⟩ := h
      subst hb
      subst ha
      obtain ⟨hc, hh⟩ := h1
      subst hc
      cases rest with
      | nil => simp at hh
      | cons r rt =>
        simp only [List.head?_cons, Option.some.injEq] at hh
        subst hh
        rfl
    · cases hm : findDoubleClose rest with
      | some pr =>
        obtain ⟨b', a'⟩ := pr
        rw [hm] at h
        simp only [Option.some.injEq, Prod.mk.injEq] at h
        obtain ⟨hb, ha⟩ := h
        subst hb
        subst ha
        rw [ih hm]
        rfl
      | none => rw [hm] at h; exact Option.noConfusion h

theorem mem_of_mem_tail' {c : Char} {t : List Char} (h : c ∈ t.tail) :
    c ∈ t := by
  cases t with
  | nil => simp at h
  | cons a r => exact List.mem_cons.mpr (Or.inr h)

theorem collapseBracesF_chars :
    ∀ (f : Nat) (cs : List Char) (c : Char), c ∈ collapseBracesF f cs →
      c ∈ cs ∨ c = '{' ∨ c = '}' := by
  intro f
  induction f with
  | zero =>
    intro cs c hc
    cases cs with
    | nil => simp [collapseBracesF] at hc
    | cons a t => exact Or.inl hc
  | succ f ih =>
    intro cs c hc
    cases cs with
    | nil => simp [collapseBracesF] at hc
    | cons a t =>
      simp only [collapseBracesF] at hc
      by_cases hg : a = '{' ∧ t.head? = some '{'
      · rw [if_pos hg] at hc
        cases hm : findDoubleClose t.tail with
        | some pr =>
          rw [hm] at hc
          dsimp only at hc
          have hdec := findDoubleClose_decomp hm
          rcases List.mem_cons.mp hc with rfl | hc
          · exact Or.inr (Or.inl rfl)
          rcases List.mem_append.mp hc with hc | hc
          · rcases List.mem_append.mp hc with hc | hc
            · refine Or.inl (List.mem_cons.mpr (Or.inr (mem_of_mem_tail' ?_)))
              rw [hdec]
              exact List.mem_append.mpr (Or.inl hc)
            · exact Or.inr (Or.inr (List.mem_singleton.mp hc))
          · rcases ih pr.2 c hc with h | h
            · refine Or.inl (List.mem_cons.mpr (Or.inr (mem_of_mem_tail' ?_)))
              rw [hdec]
              refine List.mem_append.mpr (Or.inr ?_)
              exact List.mem_cons.mpr (Or.inr (List.mem_cons.mpr (Or.inr h)))
            · exact Or.inr h
        | none =>
          rw [hm] at hc
          dsimp only at hc
          rcases List.mem_cons.mp hc with rfl | hc'
          · exact Or.inr (Or.inl rfl)
          · rcases ih t c hc' with h | h
            · exact Or.inl (List.mem_cons.mpr (Or.inr h))
            · exact Or.inr h
      · rw [if_neg hg] at hc
        rcases List.mem_cons.mp hc with rfl | hc'
        · exact Or.inl (List.mem_cons.mpr (Or.inl rfl))
        · rcases ih t c hc' with h | h
          · exact Or.inl (List.mem_cons.mpr (Or.inr h))
          · exact Or.inr h

theorem collapseBraces_no_qmark {s : String}
    (h : ∀ c ∈ s.data, ¬ c = '?') :
    ∀ c ∈ (collapseBraces s).data, ¬ c = '?' := by
  intro c hc
  rcases collapseBracesF_chars s.data.length s.data c hc with h1 | h1 | h1
  · exact h c h1
  · subst h1; decide
  · subst h1; decide

theorem genExtraction_str {p : AiJson} {us : String} {pre post : List Char}
    (hurl : (aiToolObj p).url = .str us)
    (hsp : splitAtQuery us.data = some (pre, post)) (c0 : Nat) :
    genExtraction p c0 =
      ((genExtractQPs (lookupLast (genNewVars p c0).1) (genNewVars p c0).2
          (queryPairs post)).1,
       (genExtractQPs (lookupLast (genNewVars p c0).1) (genNewVars p c0).2
          (queryPairs post)).2,
       UrlField.str us) := by
  unfold genExtraction
  rw [hurl]
  show (match splitAtQuery (urlStrOf (UrlField.str us)).data with
    | some pr =>
      ((genExtractQPs (lookupLast (genNewVars p c0).1) (genNewVars p c0).2
          (queryPairs pr.2)).1,
       (genExtractQPs (lookupLast (genNewVars p c0).1) (genNewVars p c0).2
          (queryPairs pr.2)).2,
       setFirstText (UrlField.str us) (String.mk pr.1))
    | none => ([], (genNewVars p c0).2, UrlField.str us)) = _
  rw [show urlStrOf (UrlField.str us) = us from rfl, hsp]
  rfl

theorem genQPs_of_extracted {p : AiJson} {c0 : Nat}
    (h : ¬ (genExtraction p c0).1 = []) :
    genQPs p c0 = ((genExtraction p c0).1, (genExtraction p c0).2.1) := by
  unfold genQPs
  rw [if_pos h]

/-- C4 (corrected; the amended claim).  For a candidate whose url is a
bare string containing `?`: the remainder is split into pairs on `&`
(trimmed, empties dropped) with the value the piece between the first and
second `=`; `genExtractQPs` classifies each pair — whole-value
placeholders with a surviving declared name become a padded single
variable reference, other truthy values become literals, pairs with a
missing or empty value are dropped;  when at least one parameter results
these replace the candidate's queryParameters, and the final url is a
single literal equal to the pre-`?` prefix (double-brace pairs collapsed)
which contains no `?`. -/
theorem C4_query_extraction (p : AiJson) (doc : VfData) (c0 : Nat)
    (d : VfData) (c1 : Nat) (us : String) (pre post : List Char)
    (hurl : (aiToolObj p).url = .str us)
    (hsp : splitAtQuery us.data = some (pre, post))
    (hne : ¬ (genExtractQPs (lookupLast (genNewVars p c0).1)
      (genNewVars p c0).2 (queryPairs post)).1 = [])
    (hok : genAdd p doc c0 = .ok (d, c1)) :
    (genQPs p c0).1 =
      (genExtractQPs (lookupLast (genNewVars p c0).1) (genNewVars p c0).2
        (queryPairs post)).1 ∧
    d.apiTools = doc.apiTools ++
      [genTool p c0 [⟨[Seg.lit (collapseBraces (String.mk pre))]⟩]] ∧
    (genTool p c0
        [⟨[Seg.lit (collapseBraces (String.mk pre))]⟩]).queryParameters =
      (genQPs p c0).1 ∧
    (∀ c ∈ (collapseBraces (String.mk pre)).data, ¬ c = '?') := by
  have hext := genExtraction_str hurl hsp c0
  have hne1 : ¬ (genExtraction p c0).1 = [] := by
    rw [hext]
    exact hne
  have hq := genQPs_of_extracted hne1
  have hq1 : (genQPs p c0).1 =
      (genExtractQPs (lookupLast (genNewVars p c0).1) (genNewVars p c0).2
        (queryPairs post)).1 := by
    rw [hq, hext]
  have hqne : ¬ (genQPs p c0).1 = [] := by
    rw [hq1]
    exact hne
  have hus : ¬ us = "" := by
    intro h
    rw [h] at hsp
    simp [splitAtQuery] at hsp
  have hufree : ∀ c ∈ pre, ¬ c = '?' := (splitAtQuery_spec hsp).2
  obtain ⟨u, hc, hb⟩ := genAdd_ok hok
  have hd : d = (genBuild p doc c0 u).1 := congrArg Prod.fst hb
  have h222 : (genExtraction p c0).2.2 = UrlField.str us := by rw [hext]
  rw [h222] at hc
  have hdef : defaultUrl (UrlField.str us) = [⟨[Seg.lit us]⟩] := by
    unfold defaultUrl
    dsimp only
    rw [if_neg hus]
  rw [hdef] at hc
  have hbv : (decide ¬ (genQPs p c0).1 = []) = true := decide_eq_true hqne
  rw [hbv] at hc
  unfold cleanupUrl at hc
  dsimp only at hc
  rw [if_pos rfl] at hc
  have hu : u = [⟨[Seg.lit (collapseBraces (splitFirstQ us))]⟩] :=
    (Except.ok.inj hc).symm
  have hsq : splitFirstQ us = String.mk pre := splitFirstQ_of_split hsp
  refine ⟨hq1, ?_, rfl, ?_⟩
  · rw [hd, genBuild_fst_apiTools, hu, hsq]
  · intro c hcm
    refine collapseBraces_no_qmark ?_ c hcm
    intro x hx
    exact hufree x hx

/-- C4 (counterexample).  The url `https://x?` has a literal form
containing `?`, yet the resulting url segment sequence still contains the
`?`: the query string yields no parameters (`''` after `?` parses to no
pairs), the fallback also yields none, and the cleanup only strips the
query remainder when queryParameters ended up nonempty. -/
theorem C4_lone_query_mark_kept :
    urlStrOf (aiToolObj pC4x).url = "https://x?" ∧
    genOk (genAdd pC4x docEmpty 100) = true ∧
    ((genDoc (genAdd pC4x docEmpty 100)).apiTools.headD toolA).url =
      [⟨[Seg.lit "https://x?"]⟩] ∧
    '?' ∈ "https://x?".data := by
  exact ⟨rfl, by decide, by decide, by decide⟩

/-- Witness for C4's amended claim at the specification's example url. -/
theorem C4_query_extraction_witness :
    ((aiToolObj pC4).url =
      .str "https://api.example.com/search?status=active&user={userId}" ∧
    splitAtQuery
        "https://api.example.com/search?status=active&user={userId}".data =
      some ("https://api.example.com/search".data,
        "status=active&user={userId}".data) ∧
    ¬ (genExtractQPs (lookupLast (genNewVars pC4 100).1)
        (genNewVars pC4 100).2
        (queryPairs "status=active&user={userId}".data)).1 = [] ∧
    genAdd pC4 docEmpty 100 =
      .ok ((genOut pC4 docEmpty 100).1, (genOut pC4 docEmpty 100).2)) ∧
    ((genQPs pC4 100).1 =
      (genExtractQPs (lookupLast (genNewVars pC4 100).1)
        (genNewVars pC4 100).2
        (queryPairs "status=active&user={userId}".data)).1 ∧
    (genOut pC4 docEmpty 100).1.apiTools = docEmpty.apiTools ++
      [genTool pC4 100 [⟨[Seg.lit (collapseBraces
        (String.mk "https://api.example.com/search".data))]⟩]] ∧
    (genTool pC4 100 [⟨[Seg.lit (collapseBraces
        (String.mk "https://api.example.com/search".data))]⟩]).queryParameters =
      (genQPs pC4 100).1 ∧
    (∀ c ∈ (collapseBraces
        (String.mk "https://api.example.com/search".data)).data,
      ¬ c = '?')) ∧
    (genQPs pC4 100).1 =
      [{ id := 102, key := "status", value := [⟨[Seg.lit "active"]⟩] },
       { id := 103, key := "user",
         value := [⟨[Seg.lit "", Seg.ref 101, Seg.lit " "]⟩] }] ∧
    ((genNewVars pC4 100).1).map (fun w => w.name) = ["userId"] :=
  ⟨⟨rfl, by decide, by decide, rfl⟩,
    C4_query_extraction pC4 docEmpty 100 _ _ _ _ _ rfl (by decide)
      (by decide) rfl,
    by decide, by decide⟩

end VfCopilot
